import Mathlib

/-!
# Verification of the notbadger storage engine core

A shallow embedding, in Lean 4, of the parts of the `notbadger` repository
that the specification's claims are about:

* byte-level encoding helpers (`encoding/binary` big/little endian, Go
  `bytes.Compare`, xxHash32);
* the `z` package key/timestamp codec (`KeyWithTs`, `ParseTs`, `ParseKey`,
  `CompareKeys`, `SameKey`);
* the `pb` package (`ManifestChange` marshalling);
* the manifest (`applyManifestChange`, `applyChangeSet`, `createManifest`,
  `ReplayManifestFile`, `manifestFile.addChanges`);
* the levels controller's `revertToManifest`;
* the key registry's `OpenKeyRegistry`;
* the sequential semantics of the skiplist (`Put`, `Get`);
* the value pointer (`valuePointer.Encode`).

Go machine integers are modelled as `Nat` with explicit `% 2^w` at the
points where the Go code converts or can overflow.  Byte strings are
`List Nat` whose elements are byte values.  Fallible Go functions return
`Except`/`Option`.  Go maps are modelled as association lists: the Go code
embedded here never depends on map iteration order except where noted.
-/

namespace NotBadger

/-! ## Byte-level primitives -/

/-- Two to the 32nd, the modulus of Go's `uint32`. -/
def u32Mod : Nat := 4294967296

/-- Two to the 64th, the modulus of Go's `uint64`. -/
def u64Mod : Nat := 18446744073709551616

/-- `math.MaxUint64`. -/
def maxU64 : Nat := 18446744073709551615

/-- Truncation to 32 bits, Go's `uint32(·)` conversion. -/
def m32 (n : Nat) : Nat := n % u32Mod

/-- Go `bytes.Compare`: lexicographic comparison of byte slices, a proper
prefix sorting first.  Returns `-1`, `0` or `1`. -/
def byteCompare : List Nat → List Nat → Int
  | [], [] => 0
  | [], _ :: _ => -1
  | _ :: _, [] => 1
  | a :: as, b :: bs =>
    if a < b then -1
    else if b < a then 1
    else byteCompare as bs

/-- Big-endian encoding of `n` into `w` bytes, as `binary.BigEndian.PutUintN`
does: byte `i` (from the left) is `(n >>> (8*(w-1-i))) % 256`. -/
def beBytes : Nat → Nat → List Nat
  | 0, _ => []
  | w + 1, n => (n >>> (8 * w)) % 256 :: beBytes w n

/-- Big-endian decoding of a byte list, as `binary.BigEndian.UintN` does on a
slice of length `N`. -/
def beUint (bs : List Nat) : Nat := bs.foldl (fun acc b => acc * 256 + b % 256) 0

/-- Little-endian decoding of a byte list (first byte least significant). -/
def leUint (bs : List Nat) : Nat := bs.foldr (fun b acc => b % 256 + 256 * acc) 0

/-- Little-endian encoding of `n` into `w` bytes. -/
def leBytes : Nat → Nat → List Nat
  | 0, _ => []
  | w + 1, n => n % 256 :: leBytes w (n / 256)

@[simp] theorem beBytes_length (w n : Nat) : (beBytes w n).length = w := by
  induction w generalizing n with
  | zero => rfl
  | succ w ih => simp [beBytes, ih]

@[simp] theorem leBytes_length (w n : Nat) : (leBytes w n).length = w := by
  induction w generalizing n with
  | zero => rfl
  | succ w ih => simp [leBytes, ih]

theorem beUint_append (as bs : List Nat) :
    beUint (as ++ bs) = bs.foldl (fun acc b => acc * 256 + b % 256) (beUint as) := by
  simp [beUint, List.foldl_append]

theorem beUint_cons (a : Nat) (bs : List Nat) :
    beUint (a :: bs) = bs.foldl (fun acc b => acc * 256 + b % 256) (a % 256) := by
  simp [beUint]

theorem beUint_foldl_lt (bs : List Nat) :
    ∀ acc, bs.foldl (fun acc b => acc * 256 + b % 256) acc < (acc + 1) * 256 ^ bs.length := by
  induction bs with
  | nil => intro acc; simp only [List.foldl_nil, List.length_nil, pow_zero, mul_one]; omega
  | cons b bs ih =>
    intro acc
    simp only [List.foldl_cons, List.length_cons]
    calc bs.foldl (fun acc b => acc * 256 + b % 256) (acc * 256 + b % 256)
        < (acc * 256 + b % 256 + 1) * 256 ^ bs.length := ih _
      _ ≤ ((acc + 1) * 256) * 256 ^ bs.length := by
          have hb : b % 256 < 256 := Nat.mod_lt b (by norm_num)
          have : acc * 256 + b % 256 + 1 ≤ (acc + 1) * 256 := by nlinarith
          exact Nat.mul_le_mul_right _ this
      _ = (acc + 1) * 256 ^ (bs.length + 1) := by ring

theorem beUint_lt (bs : List Nat) : beUint bs < 256 ^ bs.length := by
  have h := beUint_foldl_lt bs 0
  simpa [beUint] using h

/-- The top byte written by `beBytes` is the top base-256 digit. -/
theorem shiftRight_mod_eq_digit (n w : Nat) :
    (n >>> (8 * w)) % 256 = n / 256 ^ w % 256 := by
  rw [Nat.shiftRight_eq_div_pow]
  have h : (2 : Nat) ^ (8 * w) = 256 ^ w := by
    rw [Nat.pow_mul]
  rw [h]

/-- Base-256 digit decomposition of `n % 256^(w+1)`. -/
theorem mod_pow_succ_digit (n w : Nat) :
    n % 256 ^ (w + 1) = n % 256 ^ w + 256 ^ w * (n / 256 ^ w % 256) := by
  rw [pow_succ, Nat.mod_mul]

theorem beUint_foldl_eq (w n : Nat) :
    ∀ acc, (beBytes w n).foldl (fun acc b => acc * 256 + b % 256) acc
      = acc * 256 ^ w + n % 256 ^ w := by
  induction w generalizing n with
  | zero => intro acc; simp [beBytes, Nat.mod_one]
  | succ w ih =>
    intro acc
    simp only [beBytes, List.foldl_cons]
    rw [ih]
    rw [Nat.mod_mod_of_dvd _ (dvd_refl 256), shiftRight_mod_eq_digit n w,
      mod_pow_succ_digit n w]
    ring

/-- Decoding inverts encoding, up to truncation: `beUint (beBytes w n) = n % 256^w`. -/
theorem beUint_beBytes (w n : Nat) : beUint (beBytes w n) = n % 256 ^ w := by
  have h := beUint_foldl_eq w n 0
  simpa [beUint] using h

/-- The three-way comparison on `Nat` that Go's byte comparison refines. -/
def cmpInt (x y : Nat) : Int := if x < y then -1 else if y < x then 1 else 0

theorem cmpInt_eq_zero_iff (x y : Nat) : cmpInt x y = 0 ↔ x = y := by
  unfold cmpInt
  split <;> rename_i h
  · constructor <;> intro hc <;> omega
  · split <;> rename_i h2
    · constructor <;> intro hc <;> omega
    · constructor <;> intro hc <;> omega

theorem byteCompare_eq_zero_iff (a b : List Nat) : byteCompare a b = 0 ↔ a = b := by
  induction a generalizing b with
  | nil => cases b <;> simp [byteCompare]
  | cons x xs ih =>
    cases b with
    | nil => simp [byteCompare]
    | cons y ys =>
      unfold byteCompare
      split <;> rename_i h
      · simp only [List.cons.injEq]
        constructor
        · intro hc; omega
        · rintro ⟨rfl, rfl⟩; omega
      · split <;> rename_i h2
        · simp only [List.cons.injEq]
          constructor
          · intro hc; omega
          · rintro ⟨rfl, rfl⟩; omega
        · have hxy : x = y := by omega
          simp [hxy, ih]

theorem byteCompare_swap (a b : List Nat) : byteCompare a b = -byteCompare b a := by
  induction a generalizing b with
  | nil => cases b <;> simp [byteCompare]
  | cons x xs ih =>
    cases b with
    | nil => simp [byteCompare]
    | cons y ys =>
      unfold byteCompare
      rcases Nat.lt_trichotomy x y with h | h | h
      · rw [if_pos h, if_neg (by omega), if_pos h]
      · subst h
        rw [if_neg (by omega), if_neg (by omega), if_neg (by omega), if_neg (by omega)]
        exact ih ys
      · rw [if_neg (by omega), if_pos h, if_pos h]
        norm_num

theorem byteCompare_trans_neg {a b c : List Nat}
    (h1 : byteCompare a b = -1) (h2 : byteCompare b c = -1) : byteCompare a c = -1 := by
  induction a generalizing b c with
  | nil =>
    cases b with
    | nil => simp [byteCompare] at h1
    | cons y ys =>
      cases c with
      | nil => simp [byteCompare] at h2
      | cons z zs => simp [byteCompare]
  | cons x xs ih =>
    cases b with
    | nil => simp [byteCompare] at h1
    | cons y ys =>
      cases c with
      | nil => simp [byteCompare] at h2
      | cons z zs =>
        unfold byteCompare at h1 h2 ⊢
        rcases Nat.lt_trichotomy x y with hxy | hxy | hxy
        · rcases Nat.lt_trichotomy y z with hyz | hyz | hyz
          · rw [if_pos (by omega)]
          · rw [if_pos (by omega)]
          · rw [if_neg (by omega), if_pos hyz] at h2
            exact absurd h2 (by norm_num)
        · subst hxy
          rw [if_neg (by omega), if_neg (by omega)] at h1
          rcases Nat.lt_trichotomy x z with hxz | hxz | hxz
          · rw [if_pos hxz]
          · subst hxz
            rw [if_neg (by omega), if_neg (by omega)] at h2 ⊢
            exact ih h1 h2
          · rw [if_neg (by omega), if_pos hxz] at h2
            exact absurd h2 (by norm_num)
        · rw [if_neg (by omega), if_pos hxy] at h1
          exact absurd h1 (by norm_num)

theorem byteCompare_cases (a b : List Nat) :
    byteCompare a b = -1 ∨ byteCompare a b = 0 ∨ byteCompare a b = 1 := by
  induction a generalizing b with
  | nil => cases b <;> simp [byteCompare]
  | cons x xs ih =>
    cases b with
    | nil => simp [byteCompare]
    | cons y ys =>
      unfold byteCompare
      split
      · exact Or.inl rfl
      · split
        · exact Or.inr (Or.inr rfl)
        · exact ih ys

/-- With equal high digits, the ordering of `n % 256^(w+1)` is the ordering of
the remainders. -/
theorem digit_lt_of_high_lt {P ra rb da db : Nat} (_hP : 0 < P) (hra : ra < P)
    (h : da < db) : ra + P * da < rb + P * db := by
  have hm : P * da + P ≤ P * db := by
    calc P * da + P = P * (da + 1) := by ring
      _ ≤ P * db := Nat.mul_le_mul_left _ (by omega)
  linarith

/-- Fixed-width big-endian byte strings compare exactly as the (truncated)
numbers they encode. -/
theorem byteCompare_beBytes (w a b : Nat) :
    byteCompare (beBytes w a) (beBytes w b) = cmpInt (a % 256 ^ w) (b % 256 ^ w) := by
  induction w generalizing a b with
  | zero => simp [beBytes, byteCompare, cmpInt, Nat.mod_one]
  | succ w ih =>
    have hP : 0 < 256 ^ w := Nat.pos_pow_of_pos _ (by norm_num)
    have hma : a % 256 ^ w < 256 ^ w := Nat.mod_lt _ hP
    have hmb : b % 256 ^ w < 256 ^ w := Nat.mod_lt _ hP
    simp only [beBytes]
    unfold byteCompare
    rw [shiftRight_mod_eq_digit a w, shiftRight_mod_eq_digit b w]
    rcases Nat.lt_trichotomy (a / 256 ^ w % 256) (b / 256 ^ w % 256) with h | h | h
    · have hlt : a % 256 ^ (w + 1) < b % 256 ^ (w + 1) := by
        rw [mod_pow_succ_digit a w, mod_pow_succ_digit b w]
        exact digit_lt_of_high_lt hP hma h
      rw [if_pos h]
      unfold cmpInt
      rw [if_pos hlt]
    · rw [if_neg (by omega), if_neg (by omega), ih]
      unfold cmpInt
      rw [mod_pow_succ_digit a w, mod_pow_succ_digit b w, h]
      rcases Nat.lt_trichotomy (a % 256 ^ w) (b % 256 ^ w) with h2 | h2 | h2
      · rw [if_pos h2, if_pos (by linarith)]
      · rw [h2]
        simp
      · rw [if_neg (by omega), if_pos h2, if_neg (by linarith), if_pos (by linarith)]
    · have hlt : b % 256 ^ (w + 1) < a % 256 ^ (w + 1) := by
        rw [mod_pow_succ_digit a w, mod_pow_succ_digit b w]
        exact digit_lt_of_high_lt hP hmb h
      rw [if_neg (by omega), if_pos h]
      unfold cmpInt
      rw [if_neg (by omega), if_pos hlt]

/-! ## The `z` package: timestamped keys (`src/z/z.go`) -/

/-- `z.CompareKeys`: compare the user prefixes (everything but the final 8
bytes) first; when those are equal, compare the final 8 bytes. -/
def compareKeys (key1 key2 : List Nat) : Int :=
  let c := byteCompare (key1.take (key1.length - 8)) (key2.take (key2.length - 8))
  if c ≠ 0 then c
  else byteCompare (key1.drop (key1.length - 8)) (key2.drop (key2.length - 8))

/-- `z.KeyWithTs`: append the 8-byte big-endian encoding of `MaxUint64 - ts`. -/
def keyWithTs (key : List Nat) (ts : Nat) : List Nat :=
  key ++ beBytes 8 (maxU64 - ts)

/-- `z.ParseKey`: drop the final 8 bytes. -/
def parseKey (key : List Nat) : List Nat := key.take (key.length - 8)

/-- `z.ParseTs`: 0 for keys of at most 8 bytes, otherwise `MaxUint64` minus
the big-endian value of the final 8 bytes. -/
def parseTs (key : List Nat) : Nat :=
  if key.length ≤ 8 then 0
  else maxU64 - beUint (key.drop (key.length - 8))

/-- `z.SameKey`: equal length and equal user prefix. -/
def sameKey (src dst : List Nat) : Bool :=
  if src.length ≠ dst.length then false
  else decide (parseKey src = parseKey dst)

@[simp] theorem keyWithTs_length (k : List Nat) (ts : Nat) :
    (keyWithTs k ts).length = k.length + 8 := by
  simp [keyWithTs]

theorem keyWithTs_take (k : List Nat) (ts : Nat) :
    (keyWithTs k ts).take ((keyWithTs k ts).length - 8) = k := by
  rw [keyWithTs_length, Nat.add_sub_cancel]
  have h : k.length = k.length := rfl
  calc (keyWithTs k ts).take k.length
      = (k ++ beBytes 8 (maxU64 - ts)).take k.length := rfl
    _ = k := List.take_left k _

theorem keyWithTs_drop (k : List Nat) (ts : Nat) :
    (keyWithTs k ts).drop ((keyWithTs k ts).length - 8) = beBytes 8 (maxU64 - ts) := by
  rw [keyWithTs_length, Nat.add_sub_cancel]
  exact List.drop_left k _

@[simp] theorem parseKey_keyWithTs (k : List Nat) (ts : Nat) :
    parseKey (keyWithTs k ts) = k := by
  unfold parseKey
  exact keyWithTs_take k ts

theorem parseTs_keyWithTs (k : List Nat) (ts : Nat) (hk : k ≠ []) (hts : ts < u64Mod) :
    parseTs (keyWithTs k ts) = ts := by
  have hlen : 0 < k.length := List.length_pos.mpr hk
  unfold parseTs
  rw [if_neg (by rw [keyWithTs_length]; omega), keyWithTs_drop, beUint_beBytes]
  have h64 : (256 : Nat) ^ 8 = u64Mod := by norm_num [u64Mod]
  rw [h64, Nat.mod_eq_of_lt (by unfold maxU64 u64Mod at *; omega)]
  unfold maxU64 u64Mod at *
  omega

theorem parseTs_keyWithTs_nil (ts : Nat) : parseTs (keyWithTs [] ts) = 0 := by
  unfold parseTs
  rw [if_pos (by simp)]

/-- The suffix comparison of two timestamped keys is the reversed comparison
of the timestamps. -/
theorem compareKeys_keyWithTs (u1 u2 : List Nat) (t1 t2 : Nat)
    (h1 : t1 < u64Mod) (h2 : t2 < u64Mod) :
    compareKeys (keyWithTs u1 t1) (keyWithTs u2 t2) =
      if byteCompare u1 u2 ≠ 0 then byteCompare u1 u2 else cmpInt t2 t1 := by
  unfold compareKeys
  rw [keyWithTs_take, keyWithTs_take, keyWithTs_drop, keyWithTs_drop,
    byteCompare_beBytes]
  have h64 : (256 : Nat) ^ 8 = u64Mod := by norm_num [u64Mod]
  rw [h64, Nat.mod_eq_of_lt (by unfold maxU64 u64Mod at *; omega),
    Nat.mod_eq_of_lt (by unfold maxU64 u64Mod at *; omega)]
  have hsw : cmpInt (maxU64 - t1) (maxU64 - t2) = cmpInt t2 t1 := by
    unfold cmpInt maxU64
    unfold u64Mod at h1 h2
    split_ifs <;> first | rfl | omega
  rw [hsw]

/-- **C5.** Timestamped key ordering: `CompareKeys` on keys built by
`KeyWithTs` compares the user prefixes first and, when the user prefixes are
equal, orders by the inverted timestamp suffix; in particular for the same
user key and timestamps `t1 > t2`, `CompareKeys (KeyWithTs k t1)
(KeyWithTs k t2) < 0`, so newer versions sort strictly before older ones. -/
theorem compareKeys_orders_user_prefix_then_inverted_ts :
    (∀ u1 u2 t1 t2, t1 < u64Mod → t2 < u64Mod →
      compareKeys (keyWithTs u1 t1) (keyWithTs u2 t2) =
        if byteCompare u1 u2 ≠ 0 then byteCompare u1 u2 else cmpInt t2 t1)
    ∧ (∀ k t1 t2, t1 < u64Mod → t2 < u64Mod → t2 < t1 →
      compareKeys (keyWithTs k t1) (keyWithTs k t2) < 0) := by
  constructor
  · exact compareKeys_keyWithTs
  · intro k t1 t2 h1 h2 hlt
    rw [compareKeys_keyWithTs k k t1 t2 h1 h2]
    have hbc : byteCompare k k = 0 := (byteCompare_eq_zero_iff k k).mpr rfl
    rw [if_neg (by simp [hbc])]
    unfold cmpInt
    rw [if_pos hlt]
    norm_num

/-- Witness for C5 at concrete inputs. -/
theorem compareKeys_orders_user_prefix_then_inverted_ts_witness :
    compareKeys (keyWithTs [7] 5) (keyWithTs [7] 3) < 0 :=
  compareKeys_orders_user_prefix_then_inverted_ts.2 [7] 5 3
    (by norm_num [u64Mod]) (by norm_num [u64Mod]) (by norm_num)

/-- **C10.** Key/timestamp codec edge case: for every non-empty user key the
`KeyWithTs`/`ParseTs`/`ParseKey` round trip is exact, but for the empty user
key `KeyWithTs` produces an 8-byte key on which `ParseTs` returns 0 for every
timestamp (since `ParseTs` is 0 on keys of at most 8 bytes), so the timestamp
round trip can fail exactly on the empty user key. -/
theorem parseTs_keyWithTs_empty_key_edge (k : List Nat) (ts : Nat) (hts : ts < u64Mod) :
    (k ≠ [] → parseTs (keyWithTs k ts) = ts ∧ parseKey (keyWithTs k ts) = k)
    ∧ (k = [] → (keyWithTs k ts).length = 8 ∧ parseTs (keyWithTs k ts) = 0)
    ∧ ((∃ ts2, ts2 < u64Mod ∧ parseTs (keyWithTs k ts2) ≠ ts2) ↔ k = []) := by
  refine ⟨fun hk => ⟨parseTs_keyWithTs k ts hk hts, parseKey_keyWithTs k ts⟩,
    fun hk => ⟨by simp [hk], by rw [hk]; exact parseTs_keyWithTs_nil ts⟩, ?_, ?_⟩
  · rintro ⟨ts2, hts2, hne⟩
    by_contra hk
    exact hne (parseTs_keyWithTs k ts2 hk hts2)
  · rintro rfl
    exact ⟨1, by norm_num [u64Mod], by rw [parseTs_keyWithTs_nil]; norm_num⟩

/-- Witness for C10 at concrete inputs. -/
theorem parseTs_keyWithTs_empty_key_edge_witness :
    parseTs (keyWithTs [5] 3) = 3 ∧ parseTs (keyWithTs [] 3) = 0 := by
  have h := parseTs_keyWithTs_empty_key_edge [5] 3 (by norm_num [u64Mod])
  have h2 := parseTs_keyWithTs_empty_key_edge [] 3 (by norm_num [u64Mod])
  exact ⟨(h.1 (by simp)).1, (h2.2.1 rfl).2⟩

/-! ## The `pb` package: `ManifestChange` (`src/pb/manifest_change.go`) -/

/-- `pb.ManifestChangeSize = 4 + 8 + 1 + 1 + 8 + 1 + 1`. -/
def manifestChangeSize : Nat := 24

/-- `pb.ManifestChange`.  The Go field types are `uint32`, `uint64`,
`uint8`, `uint8`, `uint64`, `uint8`, `uint8`. -/
structure ManifestChange where
  partitionId : Nat
  tableId : Nat
  operation : Nat
  level : Nat
  keyId : Nat
  encryptionAlgorithm : Nat
  compression : Nat
deriving Repr, DecidableEq

/-- The field ranges guaranteed by the Go struct's machine-integer types. -/
def ManifestChange.WF (c : ManifestChange) : Prop :=
  c.partitionId < u32Mod ∧ c.tableId < u64Mod ∧ c.operation < 256 ∧
    c.level < 256 ∧ c.keyId < u64Mod ∧ c.encryptionAlgorithm < 256 ∧
    c.compression < 256

instance (c : ManifestChange) : Decidable c.WF := by
  unfold ManifestChange.WF
  infer_instance

/-- `ManifestChange.Marshal` (through `MarshalEx` into a fresh 24-byte
buffer): PartitionId (4 BE), TableId (8 BE), Operation (1), Level (1),
KeyId (8 BE), EncryptionAlgorithm (1), Compression (1). -/
def ManifestChange.marshal (c : ManifestChange) : List Nat :=
  beBytes 4 c.partitionId ++ beBytes 8 c.tableId ++ [c.operation % 256] ++
    [c.level % 256] ++ beBytes 8 c.keyId ++ [c.encryptionAlgorithm % 256] ++
    [c.compression % 256]

/-- `ManifestChange.Unmarshal`: fails when fewer than 24 bytes are available,
otherwise reads the 24-byte layout back (`src[12]`, `src[13]`, `src[22]`,
`src[23]` are the single-byte fields). -/
def ManifestChange.unmarshal (src : List Nat) : Option ManifestChange :=
  if src.length < manifestChangeSize then none
  else some
    { partitionId := beUint (src.take 4)
      tableId := beUint ((src.drop 4).take 8)
      operation := (src.drop 12).headD 0
      level := (src.drop 13).headD 0
      keyId := beUint ((src.drop 14).take 8)
      encryptionAlgorithm := (src.drop 22).headD 0
      compression := (src.drop 23).headD 0 }

theorem take_append_of_length {α : Type} {l1 l2 : List α} {n : Nat}
    (h : l1.length = n) : (l1 ++ l2).take n = l1 := by
  subst h
  exact List.take_left l1 l2

theorem drop_append_of_length {α : Type} {l1 l2 : List α} {n : Nat}
    (h : l1.length = n) : (l1 ++ l2).drop n = l2 := by
  subst h
  exact List.drop_left l1 l2

@[simp] theorem manifestChange_marshal_length (c : ManifestChange) :
    (ManifestChange.marshal c).length = 24 := by
  simp [ManifestChange.marshal]

theorem manifestChange_unmarshal_marshal (c : ManifestChange) (h : c.WF) :
    ManifestChange.unmarshal (ManifestChange.marshal c) = some c := by
  obtain ⟨p, t, o, lv, k, ea, cp⟩ := c
  obtain ⟨h1, h2, h3, h4, h5, h6, h7⟩ := h
  have e4 : (256 : Nat) ^ 4 = u32Mod := by norm_num [u32Mod]
  have e8 : (256 : Nat) ^ 8 = u64Mod := by norm_num [u64Mod]
  unfold ManifestChange.marshal ManifestChange.unmarshal
  simp only [List.append_assoc]
  rw [if_neg (by simp [manifestChangeSize])]
  have d4 : (beBytes 4 p ++ (beBytes 8 t ++ ([o % 256] ++ ([lv % 256] ++
      (beBytes 8 k ++ ([ea % 256] ++ [cp % 256])))))).drop 4
      = beBytes 8 t ++ ([o % 256] ++ ([lv % 256] ++
        (beBytes 8 k ++ ([ea % 256] ++ [cp % 256])))) :=
    drop_append_of_length (beBytes_length 4 p)
  have d12 : (beBytes 4 p ++ (beBytes 8 t ++ ([o % 256] ++ ([lv % 256] ++
      (beBytes 8 k ++ ([ea % 256] ++ [cp % 256])))))).drop 12
      = [o % 256] ++ ([lv % 256] ++ (beBytes 8 k ++ ([ea % 256] ++ [cp % 256]))) := by
    rw [show (12 : Nat) = 4 + 8 from rfl, ← List.drop_drop, d4]
    exact drop_append_of_length (beBytes_length 8 t)
  have d13 : (beBytes 4 p ++ (beBytes 8 t ++ ([o % 256] ++ ([lv % 256] ++
      (beBytes 8 k ++ ([ea % 256] ++ [cp % 256])))))).drop 13
      = [lv % 256] ++ (beBytes 8 k ++ ([ea % 256] ++ [cp % 256])) := by
    rw [show (13 : Nat) = 12 + 1 from rfl, ← List.drop_drop, d12]
    rfl
  have d14 : (beBytes 4 p ++ (beBytes 8 t ++ ([o % 256] ++ ([lv % 256] ++
      (beBytes 8 k ++ ([ea % 256] ++ [cp % 256])))))).drop 14
      = beBytes 8 k ++ ([ea % 256] ++ [cp % 256]) := by
    rw [show (14 : Nat) = 13 + 1 from rfl, ← List.drop_drop, d13]
    rfl
  have d22 : (beBytes 4 p ++ (beBytes 8 t ++ ([o % 256] ++ ([lv % 256] ++
      (beBytes 8 k ++ ([ea % 256] ++ [cp % 256])))))).drop 22
      = [ea % 256] ++ [cp % 256] := by
    rw [show (22 : Nat) = 14 + 8 from rfl, ← List.drop_drop, d14]
    exact drop_append_of_length (beBytes_length 8 k)
  have d23 : (beBytes 4 p ++ (beBytes 8 t ++ ([o % 256] ++ ([lv % 256] ++
      (beBytes 8 k ++ ([ea % 256] ++ [cp % 256])))))).drop 23
      = [cp % 256] := by
    rw [show (23 : Nat) = 22 + 1 from rfl, ← List.drop_drop, d22]
    rfl
  rw [take_append_of_length (beBytes_length 4 p), d4,
    take_append_of_length (beBytes_length 8 t), d12, d13, d14,
    take_append_of_length (beBytes_length 8 k), d22, d23]
  simp only [Option.some.injEq, ManifestChange.mk.injEq, List.cons_append,
    List.headD_cons, List.nil_append]
  rw [beUint_beBytes, beUint_beBytes, beUint_beBytes, e4, e8]
  refine ⟨Nat.mod_eq_of_lt h1, Nat.mod_eq_of_lt h2, Nat.mod_eq_of_lt h3,
    Nat.mod_eq_of_lt h4, Nat.mod_eq_of_lt h5, Nat.mod_eq_of_lt h6,
    Nat.mod_eq_of_lt h7⟩

/-- **C7.** `ManifestChange` encoding round trip: `Marshal` produces exactly
24 bytes in the layout PartitionId (4 BE), TableId (8 BE), Operation (1),
Level (1), KeyId (8 BE), EncryptionAlgorithm (1), Compression (1), and
`Unmarshal (Marshal c) = c`. -/
theorem manifestChange_marshal_roundtrip (c : ManifestChange) (h : c.WF) :
    (ManifestChange.marshal c).length = 24
    ∧ ManifestChange.marshal c
        = beBytes 4 c.partitionId ++ beBytes 8 c.tableId ++ [c.operation % 256] ++
          [c.level % 256] ++ beBytes 8 c.keyId ++ [c.encryptionAlgorithm % 256] ++
          [c.compression % 256]
    ∧ ManifestChange.unmarshal (ManifestChange.marshal c) = some c :=
  ⟨manifestChange_marshal_length c, rfl, manifestChange_unmarshal_marshal c h⟩

/-- Witness for C7 at a concrete change. -/
theorem manifestChange_marshal_roundtrip_witness :
    (ManifestChange.marshal ⟨1, 2, 1, 3, 4, 0, 2⟩).length = 24
    ∧ ManifestChange.unmarshal (ManifestChange.marshal ⟨1, 2, 1, 3, 4, 0, 2⟩)
        = some ⟨1, 2, 1, 3, 4, 0, 2⟩ := by
  have h := manifestChange_marshal_roundtrip ⟨1, 2, 1, 3, 4, 0, 2⟩ (by decide)
  exact ⟨h.1, h.2.2⟩

/-! ## Value pointers (`src/unnamed/part_007`) -/

/-- `valuePointer`: three `uint32` fields `Fid`, `Len`, `Offset`;
`valuePointerSize = unsafe.Sizeof(valuePointer{}) = 12`. -/
structure valuePointer where
  fid : Nat
  len : Nat
  offset : Nat
deriving Repr, DecidableEq

def valuePointer.WF (v : valuePointer) : Prop :=
  v.fid < u32Mod ∧ v.len < u32Mod ∧ v.offset < u32Mod

instance (v : valuePointer) : Decidable v.WF := by
  unfold valuePointer.WF
  infer_instance

/-- `valuePointer.Encode`: the struct is copied into the buffer byte for byte
(`*(*valuePointer)(unsafe.Pointer(&b[0])) = v`), i.e. the three consecutive
`uint32` fields in declaration order, each in native little-endian byte
order, 12 bytes total (the struct has no padding). -/
def valuePointer.encode (v : valuePointer) : List Nat :=
  leBytes 4 v.fid ++ leBytes 4 v.len ++ leBytes 4 v.offset

/-- Modelled from the spec: `valuePointer.Decode` does not appear in the
sources under `src/` (only `Encode` and its callers do).  The spec describes
the value pointer as a fixed 12-byte compact native-order triple
`{fileId, len, offset}`, so decoding reads the three `uint32` fields back in
the same order and byte order as `Encode` wrote them. -/
def valuePointer.decode (bs : List Nat) : valuePointer :=
  { fid := leUint (bs.take 4)
    len := leUint ((bs.drop 4).take 4)
    offset := leUint ((bs.drop 8).take 4) }

theorem leUint_cons (b : Nat) (bs : List Nat) :
    leUint (b :: bs) = b % 256 + 256 * leUint bs := by
  simp [leUint]

/-- Little-endian decoding inverts little-endian encoding up to truncation. -/
theorem leUint_leBytes (w n : Nat) : leUint (leBytes w n) = n % 256 ^ w := by
  induction w generalizing n with
  | zero => simp [leBytes, leUint, Nat.mod_one]
  | succ w ih =>
    rw [leBytes, leUint_cons, ih]
    rw [pow_succ', Nat.mod_mul]
    omega

/-- **C8.** Value pointer round trip: `Encode` produces exactly 12 bytes (the
compact native-order triple of the three `uint32` fields) and
`Decode (Encode p) = p`. -/
theorem valuePointer_encode_roundtrip (v : valuePointer) (h : v.WF) :
    (valuePointer.encode v).length = 12
    ∧ valuePointer.decode (valuePointer.encode v) = v := by
  obtain ⟨f, l, o⟩ := v
  obtain ⟨h1, h2, h3⟩ := h
  have e4 : (256 : Nat) ^ 4 = u32Mod := by norm_num [u32Mod]
  constructor
  · simp [valuePointer.encode]
  · unfold valuePointer.encode valuePointer.decode
    simp only [List.append_assoc]
    have d4 : (leBytes 4 f ++ (leBytes 4 l ++ leBytes 4 o)).drop 4
        = leBytes 4 l ++ leBytes 4 o := drop_append_of_length (leBytes_length 4 f)
    have d8 : (leBytes 4 f ++ (leBytes 4 l ++ leBytes 4 o)).drop 8
        = leBytes 4 o := by
      rw [show (8 : Nat) = 4 + 4 from rfl, ← List.drop_drop, d4]
      exact drop_append_of_length (leBytes_length 4 l)
    rw [take_append_of_length (leBytes_length 4 f), d4,
      take_append_of_length (leBytes_length 4 l), d8,
      List.take_of_length_le (by simp)]
    simp only [valuePointer.mk.injEq]
    rw [leUint_leBytes, leUint_leBytes, leUint_leBytes, e4]
    exact ⟨Nat.mod_eq_of_lt h1, Nat.mod_eq_of_lt h2, Nat.mod_eq_of_lt h3⟩

/-- Witness for C8 at the spec's concrete triple `{Fid:3049, Offset:353928,
Len:2839}`. -/
theorem valuePointer_encode_roundtrip_witness :
    (valuePointer.encode ⟨3049, 2839, 353928⟩).length = 12
    ∧ valuePointer.decode (valuePointer.encode ⟨3049, 2839, 353928⟩)
        = ⟨3049, 2839, 353928⟩ :=
  valuePointer_encode_roundtrip ⟨3049, 2839, 353928⟩ (by decide)

/-! ## xxHash32 (github.com/OneOfOne/xxhash `Checksum32`, seed 0)

The manifest and key registry frame every record with an xxHash32 checksum of
the payload.  The algorithm below is the standard XXH32 with seed 0, on
32-bit arithmetic (`% 2^32`), reading input words little-endian. -/

def xxPrime1 : Nat := 2654435761
def xxPrime2 : Nat := 2246822519
def xxPrime3 : Nat := 3266489917
def xxPrime4 : Nat := 668265263
def xxPrime5 : Nat := 374761393

/-- 32-bit left rotation. -/
def rotl32 (x r : Nat) : Nat := m32 (x <<< r) ||| x >>> (32 - r)

/-- One XXH32 accumulator round. -/
def xxRound (acc input : Nat) : Nat :=
  m32 (rotl32 (m32 (acc + input * xxPrime2)) 13 * xxPrime1)

/-- The 16-byte stripe loop (`for len(bs) >= 16`): four interleaved
accumulators, each absorbing one little-endian 32-bit word per stripe. -/
def xxStripes : Nat → Nat → Nat → Nat → List Nat → Nat × Nat × Nat × Nat × List Nat
  | v1, v2, v3, v4,
    b0 :: b1 :: b2 :: b3 :: b4 :: b5 :: b6 :: b7 ::
    b8 :: b9 :: b10 :: b11 :: b12 :: b13 :: b14 :: b15 :: rest =>
    xxStripes (xxRound v1 (leUint [b0, b1, b2, b3]))
      (xxRound v2 (leUint [b4, b5, b6, b7]))
      (xxRound v3 (leUint [b8, b9, b10, b11]))
      (xxRound v4 (leUint [b12, b13, b14, b15]))
      rest
  | v1, v2, v3, v4, bs => (v1, v2, v3, v4, bs)

/-- The trailing 4-byte word loop (`for len(bs) >= 4`). -/
def xxTail4 : Nat → List Nat → Nat × List Nat
  | h, b0 :: b1 :: b2 :: b3 :: rest =>
    xxTail4 (m32 (rotl32 (m32 (h + leUint [b0, b1, b2, b3] * xxPrime3)) 17 * xxPrime4)) rest
  | h, bs => (h, bs)

/-- The trailing single-byte loop. -/
def xxTail1 : Nat → List Nat → Nat
  | h, [] => h
  | h, b :: rest => xxTail1 (m32 (rotl32 (m32 (h + b % 256 * xxPrime5)) 11 * xxPrime1)) rest

/-- The final avalanche mix. -/
def xxAvalanche (h : Nat) : Nat :=
  let h1 := m32 ((h ^^^ h >>> 15) * xxPrime2)
  let h2 := m32 ((h1 ^^^ h1 >>> 13) * xxPrime3)
  h2 ^^^ h2 >>> 16

/-- `xxhash.Checksum32` with seed 0. -/
def xxh32 (bs : List Nat) : Nat :=
  let step1 :=
    if 16 ≤ bs.length then
      let r := xxStripes (m32 (xxPrime1 + xxPrime2)) xxPrime2 0 (m32 (u32Mod - xxPrime1)) bs
      (m32 (rotl32 r.1 1 + rotl32 r.2.1 7 + rotl32 r.2.2.1 12 + rotl32 r.2.2.2.1 18),
        r.2.2.2.2)
    else (xxPrime5, bs)
  let acc := m32 (step1.1 + bs.length)
  let step2 := xxTail4 acc step1.2
  xxAvalanche (xxTail1 step2.1 step2.2)

theorem xxAvalanche_lt (h : Nat) : xxAvalanche h < u32Mod := by
  unfold xxAvalanche
  have hpow : u32Mod = 2 ^ 32 := by norm_num [u32Mod]
  have h2 : m32 ((m32 ((h ^^^ h >>> 15) * xxPrime2) ^^^
      m32 ((h ^^^ h >>> 15) * xxPrime2) >>> 13) * xxPrime3) < 2 ^ 32 := by
    rw [← hpow]
    unfold m32
    exact Nat.mod_lt _ (by norm_num [u32Mod])
  have hs : m32 ((m32 ((h ^^^ h >>> 15) * xxPrime2) ^^^
      m32 ((h ^^^ h >>> 15) * xxPrime2) >>> 13) * xxPrime3) >>> 16 < 2 ^ 32 := by
    rw [Nat.shiftRight_eq_div_pow]
    exact lt_of_le_of_lt (Nat.div_le_self _ _) h2
  rw [hpow]
  exact Nat.xor_lt_two_pow h2 hs

/-- The checksum always fits in 32 bits. -/
theorem xxh32_lt (bs : List Nat) : xxh32 bs < u32Mod := by
  unfold xxh32
  exact xxAvalanche_lt _

/-! ## Association lists: the embedding of Go maps

`applyManifestChange` and `revertToManifest` only look up, assign and delete
individual map entries; they never depend on iteration order, so an
association list with insert-or-replace assignment is a faithful model. -/

/-- Go map indexing `m[k]` (with its `ok` flag as `Option`). -/
def alistLookup {α : Type} : List (Nat × α) → Nat → Option α
  | [], _ => none
  | (k', v) :: rest, k => if k' = k then some v else alistLookup rest k

/-- Go map assignment `m[k] = v`. -/
def alistInsert {α : Type} : List (Nat × α) → Nat → α → List (Nat × α)
  | [], k, v => [(k, v)]
  | (k', v') :: rest, k, v =>
    if k' = k then (k, v) :: rest else (k', v') :: alistInsert rest k v

/-- Go map deletion `delete(m, k)` (no duplicate keys arise from `alistInsert`). -/
def alistErase {α : Type} : List (Nat × α) → Nat → List (Nat × α)
  | [], _ => []
  | (k', v') :: rest, k => if k' = k then rest else (k', v') :: alistErase rest k

/-- Go set-map insertion `m[k] = struct{}{}` on a `map[uint64]struct{}`. -/
def natSetInsert (s : List Nat) (k : Nat) : List Nat :=
  if k ∈ s then s else s ++ [k]

/-- Go set-map deletion. -/
def natSetErase (s : List Nat) (k : Nat) : List Nat := s.filter (fun x => x ≠ k)

theorem alistLookup_insert {α : Type} (l : List (Nat × α)) (k : Nat) (v : α) :
    alistLookup (alistInsert l k v) k = some v := by
  induction l with
  | nil => simp [alistInsert, alistLookup]
  | cons hd rest ih =>
    obtain ⟨k', v'⟩ := hd
    unfold alistInsert
    by_cases h : k' = k
    · rw [if_pos h]
      simp [alistLookup]
    · rw [if_neg h]
      unfold alistLookup
      rw [if_neg h]
      exact ih

theorem alistLookup_insert_ne {α : Type} (l : List (Nat × α)) (k j : Nat) (v : α)
    (h : k ≠ j) : alistLookup (alistInsert l k v) j = alistLookup l j := by
  induction l with
  | nil => simp [alistInsert, alistLookup, h]
  | cons hd rest ih =>
    obtain ⟨k', v'⟩ := hd
    unfold alistInsert
    by_cases hk : k' = k
    · rw [if_pos hk]
      unfold alistLookup
      rw [hk, if_neg h, if_neg h]
    · rw [if_neg hk]
      unfold alistLookup
      by_cases hj : k' = j
      · rw [if_pos hj, if_pos hj]
      · rw [if_neg hj, if_neg hj]
        exact ih

/-! ## The manifest (`src/manifest.go`) -/

/-- `manifestVersion = 0x01092017`. -/
def manifestVersion : Nat := 0x01092017

/-- `magicalText = "!Bgr"`. -/
def magicText : List Nat := [33, 66, 103, 114]

/-- `pb.ManifestChangeCreate = 0`. -/
def manifestChangeCreate : Nat := 0

/-- `pb.ManifestChangeDelete = 1`. -/
def manifestChangeDelete : Nat := 1

/-- `TableManifest{Level, KeyID, Compression}`. -/
structure TableManifest where
  level : Nat
  keyId : Nat
  compression : Nat
deriving Repr, DecidableEq

/-- `partitionManifest{Levels, Tables}`, the per-level sets `levelManifest`
flattened to lists of table ids. -/
structure PartitionManifest where
  levels : List (List Nat)
  tables : List (Nat × TableManifest)
deriving Repr, DecidableEq

/-- `Manifest{Partitions, Creations, Deletions, TotalTables}` (counters are
Go `int`s). -/
structure Manifest where
  partitions : List (Nat × PartitionManifest)
  creations : Int
  deletions : Int
  totalTables : Int
deriving Repr, DecidableEq

/-- `createManifest()`. -/
def createManifest : Manifest :=
  { partitions := [], creations := 0, deletions := 0, totalTables := 0 }

/-- The `for len(partition.Levels) <= int(change.Level)` extension loop:
append empty level sets until the list covers index `level`; in closed form,
append `level + 1 - len` empties (none when the list is already long
enough). -/
def extendLevels (levels : List (List Nat)) (level : Nat) : List (List Nat) :=
  levels ++ List.replicate (level + 1 - levels.length) []

/-- `applyManifestChange`.  Returns the updated manifest together with an
optional error; on error the manifest reflects the in-place mutations the Go
code has already performed (the lazily materialized partition).  On `Delete`
the Go code indexes `partition.Levels[tableManifest.Level]` unguarded; that
index is always in range for manifests built by `applyManifestChange` itself
(`Create` extends `Levels` beyond the created level, `Delete` only reads
levels recorded by a `Create`), and the model's `getD`/`set` are no-ops out
of range. -/
def applyManifestChange (build : Manifest) (change : ManifestChange) :
    Manifest × Option String :=
  let found := alistLookup build.partitions change.partitionId
  let partition := found.getD { levels := [], tables := [] }
  let partitions :=
    match found with
    | some _ => build.partitions
    | none => alistInsert build.partitions change.partitionId partition
  let build1 := { build with partitions := partitions }
  if change.operation = manifestChangeCreate then
    match alistLookup partition.tables change.tableId with
    | some _ =>
      (build1, some ("MANIFEST invalid, table " ++ toString change.tableId ++
        " already exists for partition " ++ toString change.partitionId))
    | none =>
      let tables := alistInsert partition.tables change.tableId
        { level := change.level, keyId := change.keyId, compression := change.compression }
      let levels := extendLevels partition.levels change.level
      let levels := levels.set change.level
        (natSetInsert (levels.getD change.level []) change.tableId)
      let partition' : PartitionManifest := { levels := levels, tables := tables }
      ({ build1 with
          partitions := alistInsert build1.partitions change.partitionId partition'
          creations := build1.creations + 1
          totalTables := build1.totalTables + 1 }, none)
  else if change.operation = manifestChangeDelete then
    match alistLookup partition.tables change.tableId with
    | none =>
      (build1, some ("MANIFEST removes non-existing table " ++ toString change.tableId ++
        " for partition " ++ toString change.partitionId))
    | some tm =>
      let levels := partition.levels.set tm.level
        (natSetErase (partition.levels.getD tm.level []) change.tableId)
      let tables := alistErase partition.tables change.tableId
      let partition' : PartitionManifest := { levels := levels, tables := tables }
      ({ build1 with
          partitions := alistInsert build1.partitions change.partitionId partition'
          deletions := build1.deletions + 1
          totalTables := build1.totalTables - 1 }, none)
  else
    (build1, some "MANIFEST file has an invalid manifestChange operation")

/-- The change-by-change loop of `applyChangeSet`: stops at the first error,
keeping the mutations already applied (the source's own TODO notes this
partial application). -/
def applyChangesGo : Manifest → List ManifestChange → Manifest × Option String
  | build, [] => (build, none)
  | build, c :: rest =>
    match applyManifestChange build c with
    | (b, some e) => (b, some e)
    | (b, none) => applyChangesGo b rest

/-- `applyChangeSet` as its callers see it: an error or the new manifest. -/
def applyChangeSet (build : Manifest) (changes : List ManifestChange) :
    Except String Manifest :=
  match applyChangesGo build changes with
  | (b, none) => .ok b
  | (_, some e) => .error e

/-- `pb.ManifestChangeSet.Marshal`: 4-byte big-endian count, then the
24-byte records in order (the Go code writes record `i` at offset
`4 + i*24` of a buffer of exactly `4 + 24*n` bytes). -/
def marshalChangeSet (changes : List ManifestChange) : List Nat :=
  beBytes 4 changes.length ++ (changes.map ManifestChange.marshal).flatten

/-- The record-reading loop of `pb.ManifestChangeSet.Unmarshal`.  Each
iteration `i` reads the bytes from offset `4 + i*24`; a record whose
`Unmarshal` fails is left as the zero value (the Go code discards the error;
with the overflow-checked size guard this is unreachable for inputs the
guard accepts, except via a `count` so large that `4 + 24*count` wraps
`uint32`, where the Go code would panic on the slice bound instead). -/
def parseChanges : Nat → List Nat → List ManifestChange
  | 0, _ => []
  | n + 1, src =>
    ((ManifestChange.unmarshal (src.take 24)).getD ⟨0, 0, 0, 0, 0, 0, 0⟩) ::
      parseChanges n (src.drop 24)

/-- `pb.ManifestChangeSet.Unmarshal`.  The size guard compares `uint32`
values: `uint32(len(src)) < 4 + 24*count` with the right-hand side computed
in `uint32` arithmetic. -/
def unmarshalChangeSet (src : List Nat) : Except String (List ManifestChange) :=
  if src.length < 4 then
    .error "invalid manifest change set source. must be at least 4 bytes"
  else
    let count := beUint (src.take 4)
    if src.length % u32Mod < (4 + manifestChangeSize * count) % u32Mod then
      .error "cannot unmarshal manifest set, source is too short"
    else
      .ok (parseChanges count (src.drop 4))

/-- The `[4-byte BE length][4-byte BE xxHash32][payload]` framing used by
`addChanges`, `helpRewrite` and read back by `ReplayManifestFile` (the
length is written through `uint32(len(buf))`). -/
def frameRecord (payload : List Nat) : List Nat :=
  beBytes 4 payload.length ++ beBytes 4 (xxh32 payload) ++ payload

/-- The errors `ReplayManifestFile` can return. -/
inductive ReplayError where
  | badMagic
  | badVersion
  | lengthExceedsFileSize
  | badChecksum
  | unmarshalFailed (msg : String)
  | applyFailed (msg : String)
deriving Repr, DecidableEq

/-- The record loop of `ReplayManifestFile`: read the 8-byte
`[length][checksum]` trailer `lenCrc = bytes.take 8` (EOF here ends the
replay at the offset of the last complete record), decode `length` from
`lenCrc[0:4]`, reject a length larger than the (`uint32`-truncated) file
size, read the `length`-byte payload (EOF inside it also ends the replay),
verify the xxHash32 checksum against `lenCrc[4:8]`, then unmarshal and apply
the change set and continue at `offset + 8 + length`. -/
def replayRecords (fileSize : Nat) (build : Manifest) (bytes : List Nat) (offset : Nat) :
    Except ReplayError (Manifest × Nat) :=
  if _h : bytes.length < 8 then .ok (build, offset)
  else if beUint ((bytes.take 8).take 4) > fileSize then .error .lengthExceedsFileSize
  else if (bytes.drop 8).length < beUint ((bytes.take 8).take 4) then .ok (build, offset)
  else if xxh32 ((bytes.drop 8).take (beUint ((bytes.take 8).take 4)))
      ≠ beUint ((bytes.take 8).drop 4) then .error .badChecksum
  else
    match unmarshalChangeSet ((bytes.drop 8).take (beUint ((bytes.take 8).take 4))) with
    | .error e => .error (.unmarshalFailed e)
    | .ok cs =>
      match applyChangeSet build cs with
      | .error e => .error (.applyFailed e)
      | .ok build' =>
        replayRecords fileSize build'
          ((bytes.drop 8).drop (beUint ((bytes.take 8).take 4)))
          (offset + 8 + beUint ((bytes.take 8).take 4))
termination_by bytes.length
decreasing_by simp only [List.length_drop]; omega

/-- `ReplayManifestFile`: check the 8-byte header (magic `"!Bgr"`, 4-byte BE
version `0x01092017`), then replay records with `fileSize =
uint32(stat.Size())`, starting at offset 8. -/
def replayManifestFile (file : List Nat) : Except ReplayError (Manifest × Nat) :=
  if file.length < 8 then .error .badMagic
  else if file.take 4 ≠ magicText then .error .badMagic
  else if beUint ((file.drop 4).take 4) ≠ manifestVersion then .error .badVersion
  else replayRecords (file.length % u32Mod) createManifest (file.drop 8) 8

/-- The manifest file header: magic then 4-byte BE version. -/
def manifestHeader : List Nat := magicText ++ beBytes 4 manifestVersion

/-- The file the claim describes: the 8-byte header followed by each change
set framed as `[4-byte BE length][4-byte BE xxHash32][payload]`. -/
def manifestFileOfChangeSets (css : List (List ManifestChange)) : List Nat :=
  manifestHeader ++ (css.map (fun cs => frameRecord (marshalChangeSet cs))).flatten

/-- Applying change sets in order starting from a given manifest. -/
def applyChangeSetsFrom (build : Manifest) : List (List ManifestChange) →
    Except String Manifest
  | [] => .ok build
  | cs :: rest =>
    match applyChangeSet build cs with
    | .error e => .error e
    | .ok b => applyChangeSetsFrom b rest

/-- Applying change sets in order to the empty manifest `createManifest`. -/
def applyChangeSets (css : List (List ManifestChange)) : Except String Manifest :=
  applyChangeSetsFrom createManifest css

/-! ### Replay refinement: lemmas -/

@[simp] theorem frameRecord_length (p : List Nat) :
    (frameRecord p).length = 8 + p.length := by
  simp only [frameRecord, List.length_append, beBytes_length]

@[simp] theorem marshalChangeSet_length (cs : List ManifestChange) :
    (marshalChangeSet cs).length = 4 + 24 * cs.length := by
  unfold marshalChangeSet
  rw [List.length_append, beBytes_length, List.length_flatten]
  have h : ∀ l : List ManifestChange,
      (List.map List.length (l.map ManifestChange.marshal)).sum = 24 * l.length := by
    intro l
    induction l with
    | nil => simp
    | cons c rest ih =>
      simp only [List.map_cons, List.sum_cons, manifestChange_marshal_length,
        List.length_cons, ih]
      ring
  rw [h]

theorem parseChanges_marshal (cs : List ManifestChange) (h : ∀ c ∈ cs, c.WF) :
    parseChanges cs.length (cs.map ManifestChange.marshal).flatten = cs := by
  induction cs with
  | nil => simp [parseChanges]
  | cons c rest ih =>
    simp only [List.map_cons, List.flatten_cons, List.length_cons]
    unfold parseChanges
    rw [take_append_of_length (manifestChange_marshal_length c),
      manifestChange_unmarshal_marshal c (h c (by simp)),
      drop_append_of_length (manifestChange_marshal_length c)]
    simp only [Option.getD_some, List.cons.injEq, true_and]
    exact ih (fun d hd => h d (by simp [hd]))

theorem unmarshalChangeSet_marshal (cs : List ManifestChange)
    (hwf : ∀ c ∈ cs, c.WF) (hsz : 4 + 24 * cs.length < u32Mod) :
    unmarshalChangeSet (marshalChangeSet cs) = .ok cs := by
  have e4 : (256 : Nat) ^ 4 = u32Mod := by norm_num [u32Mod]
  have hn : cs.length < u32Mod := by omega
  unfold unmarshalChangeSet
  rw [if_neg (by rw [marshalChangeSet_length]; omega)]
  have htake : (marshalChangeSet cs).take 4 = beBytes 4 cs.length := by
    unfold marshalChangeSet
    exact take_append_of_length (beBytes_length 4 _)
  have hdrop : (marshalChangeSet cs).drop 4 = (cs.map ManifestChange.marshal).flatten := by
    unfold marshalChangeSet
    exact drop_append_of_length (beBytes_length 4 _)
  rw [htake, hdrop, beUint_beBytes, e4, Nat.mod_eq_of_lt hn]
  have hguard : ¬ ((marshalChangeSet cs).length % u32Mod
      < (4 + manifestChangeSize * cs.length) % u32Mod) := by
    rw [marshalChangeSet_length]
    unfold manifestChangeSize
    rw [Nat.mod_eq_of_lt hsz]
    omega
  rw [if_neg hguard, parseChanges_marshal cs hwf]

/-- One well-formed framed record at the head of the byte stream advances the
replay loop by one applied change set. -/
theorem replayRecords_frame_step (fileSize : Nat) (build m1 : Manifest)
    (cs : List ManifestChange) (tail : List Nat) (offset : Nat)
    (hwf : ∀ c ∈ cs, c.WF)
    (hsz : 4 + 24 * cs.length < u32Mod)
    (hfs : (marshalChangeSet cs).length ≤ fileSize)
    (happ : applyChangeSet build cs = .ok m1) :
    replayRecords fileSize build (frameRecord (marshalChangeSet cs) ++ tail) offset
      = replayRecords fileSize m1 tail (offset + 8 + (marshalChangeSet cs).length) := by
  have e4 : (256 : Nat) ^ 4 = u32Mod := by norm_num [u32Mod]
  have hplen : (marshalChangeSet cs).length < u32Mod := by
    rw [marshalChangeSet_length]
    omega
  have hhead : frameRecord (marshalChangeSet cs) ++ tail
      = (beBytes 4 (marshalChangeSet cs).length ++ beBytes 4 (xxh32 (marshalChangeSet cs)))
        ++ (marshalChangeSet cs ++ tail) := by
    unfold frameRecord
    simp [List.append_assoc]
  have hlen8 : (beBytes 4 (marshalChangeSet cs).length ++
      beBytes 4 (xxh32 (marshalChangeSet cs))).length = 8 := by
    simp
  rw [replayRecords, hhead]
  rw [dif_neg (by simp only [List.length_append, hlen8]; omega)]
  rw [take_append_of_length hlen8, drop_append_of_length hlen8,
    take_append_of_length (beBytes_length 4 (marshalChangeSet cs).length),
    drop_append_of_length (beBytes_length 4 (marshalChangeSet cs).length),
    beUint_beBytes, beUint_beBytes, e4, Nat.mod_eq_of_lt hplen,
    Nat.mod_eq_of_lt (xxh32_lt _)]
  rw [if_neg (by omega)]
  rw [if_neg (by simp only [List.length_append]; omega)]
  rw [List.take_left, List.drop_left]
  rw [if_neg (by simp)]
  rw [unmarshalChangeSet_marshal cs hwf hsz]
  simp [happ]

/-- Replaying a sequence of well-formed framed records applies the change
sets in order and advances the offset by the total framed length. -/
theorem replayRecords_frames (css : List (List ManifestChange)) :
    ∀ (build m' : Manifest) (fileSize offset : Nat) (suffix : List Nat),
      (∀ cs ∈ css, (∀ c ∈ cs, c.WF) ∧ 4 + 24 * cs.length < u32Mod ∧
        (marshalChangeSet cs).length ≤ fileSize) →
      applyChangeSetsFrom build css = .ok m' →
      replayRecords fileSize build
        ((css.map (fun cs => frameRecord (marshalChangeSet cs))).flatten ++ suffix) offset
        = replayRecords fileSize m' suffix
            (offset + ((css.map (fun cs => frameRecord (marshalChangeSet cs))).flatten).length) := by
  induction css with
  | nil =>
    intro build m' fileSize offset suffix _h happly
    simp only [List.map_nil, List.flatten_nil, List.nil_append, List.length_nil,
      Nat.add_zero]
    unfold applyChangeSetsFrom at happly
    injection happly with h
    rw [h]
  | cons cs rest ih =>
    intro build m' fileSize offset suffix hcond happly
    simp only [List.map_cons, List.flatten_cons, List.append_assoc]
    unfold applyChangeSetsFrom at happly
    cases hstep : applyChangeSet build cs with
    | error e =>
      rw [hstep] at happly
      simp at happly
    | ok b =>
      rw [hstep] at happly
      simp only at happly
      obtain ⟨hwf, hsz, hfs⟩ := hcond cs (by simp)
      rw [replayRecords_frame_step fileSize build b cs _ offset hwf hsz hfs hstep]
      rw [ih b m' fileSize _ suffix (fun cs2 h2 => hcond cs2 (by simp [h2])) happly]
      congr 1
      simp only [List.length_append, frameRecord_length]
      omega

/-- Each framed change set is no longer than the whole record area. -/
theorem frame_length_le_flatten (css : List (List ManifestChange))
    (cs : List ManifestChange) (h : cs ∈ css) :
    (frameRecord (marshalChangeSet cs)).length
      ≤ ((css.map (fun cs => frameRecord (marshalChangeSet cs))).flatten).length := by
  rw [List.length_flatten]
  refine List.single_le_sum (fun x _ => Nat.zero_le x) _ ?_
  rw [List.map_map]
  exact List.mem_map_of_mem _ h

/-- **C1 (amended).** Manifest replay is equivalent to direct application:
for every sequence of manifest change sets (with fields in the Go types'
ranges) whose encoded file is smaller than 2^32 bytes, writing the 8-byte
header (magic `"!Bgr"` plus version `0x01092017`) followed by each set
framed as `[4-byte BE length][4-byte BE xxHash32 of payload][payload]` and
then calling `ReplayManifestFile` on that file returns exactly the manifest
obtained by applying the same change sets in order (via `applyChangeSet`) to
the empty manifest returned by `createManifest`, together with the byte
offset at which replay stopped (the end of the file).  The 2^32 bound is
forced by the `uint32` casts in `ReplayManifestFile`; see the
counterexample. -/
theorem replayManifestFile_refines_applyChangeSets
    (css : List (List ManifestChange)) (m : Manifest)
    (hwf : ∀ cs ∈ css, ∀ c ∈ cs, c.WF)
    (hsize : (manifestFileOfChangeSets css).length < u32Mod)
    (happly : applyChangeSets css = .ok m) :
    replayManifestFile (manifestFileOfChangeSets css)
      = .ok (m, (manifestFileOfChangeSets css).length) := by
  have hm4 : magicText.length = 4 := rfl
  have hver : manifestVersion < u32Mod := by norm_num [manifestVersion, u32Mod]
  have e4 : (256 : Nat) ^ 4 = u32Mod := by norm_num [u32Mod]
  have hfile : manifestFileOfChangeSets css
      = magicText ++ (beBytes 4 manifestVersion ++
        (css.map (fun cs => frameRecord (marshalChangeSet cs))).flatten) := by
    unfold manifestFileOfChangeSets manifestHeader
    simp [List.append_assoc]
  have hlen : (manifestFileOfChangeSets css).length
      = 8 + ((css.map (fun cs => frameRecord (marshalChangeSet cs))).flatten).length := by
    rw [hfile]
    simp only [List.length_append, hm4, beBytes_length]
    omega
  unfold replayManifestFile
  rw [if_neg (by omega)]
  rw [hfile, take_append_of_length hm4,
    drop_append_of_length hm4, take_append_of_length (beBytes_length 4 _),
    if_neg (by simp), beUint_beBytes, e4, Nat.mod_eq_of_lt hver, if_neg (by simp)]
  have hdrop8 : (magicText ++ (beBytes 4 manifestVersion ++
      (css.map (fun cs => frameRecord (marshalChangeSet cs))).flatten)).drop 8
      = (css.map (fun cs => frameRecord (marshalChangeSet cs))).flatten := by
    rw [show (8 : Nat) = 4 + 4 from rfl, ← List.drop_drop, drop_append_of_length hm4]
    exact drop_append_of_length (beBytes_length 4 _)
  rw [hdrop8]
  have hflen : (magicText ++ (beBytes 4 manifestVersion ++
      (css.map (fun cs => frameRecord (marshalChangeSet cs))).flatten)).length
      = (manifestFileOfChangeSets css).length := by rw [hfile]
  rw [hflen, Nat.mod_eq_of_lt hsize]
  have hcond : ∀ cs ∈ css, (∀ c ∈ cs, c.WF) ∧ 4 + 24 * cs.length < u32Mod ∧
      (marshalChangeSet cs).length ≤ (manifestFileOfChangeSets css).length := by
    intro cs hcs
    have hle := frame_length_le_flatten css cs hcs
    rw [frameRecord_length] at hle
    refine ⟨hwf cs hcs, ?_, ?_⟩
    · rw [← marshalChangeSet_length]
      omega
    · omega
  have hrec := replayRecords_frames css createManifest m
    ((manifestFileOfChangeSets css).length) 8 [] hcond happly
  rw [← List.append_nil
    ((css.map (fun cs => frameRecord (marshalChangeSet cs))).flatten), hrec]
  rw [replayRecords]
  rw [dif_pos (by simp)]
  have : 8 + ((css.map (fun cs => frameRecord (marshalChangeSet cs))).flatten).length
      = (manifestFileOfChangeSets css).length := by omega
  rw [this]

/-- `Except` values of decidable types compare decidably (needed so witnesses
can be checked by `decide`). -/
instance {ε α : Type} [DecidableEq ε] [DecidableEq α] : DecidableEq (Except ε α)
  | .error e1, .error e2 => decidable_of_iff (e1 = e2) (by simp)
  | .error _, .ok _ => isFalse (by simp)
  | .ok _, .error _ => isFalse (by simp)
  | .ok a, .ok b => decidable_of_iff (a = b) (by simp)

/-- The manifest obtained by applying the single create change
`(partition 0, table 1, level 0)` to the empty manifest: partition 0 holds
table 1 at level 0. -/
def singleCreateManifest : Manifest :=
  ⟨[(0, ⟨[[1]], [(1, ⟨0, 0, 0⟩)]⟩)], 1, 0, 1⟩

/-- Witness for C1 at a one-record file containing a single create change. -/
theorem replayManifestFile_refines_applyChangeSets_witness :
    replayManifestFile (manifestFileOfChangeSets [[⟨0, 1, 0, 0, 0, 0, 0⟩]])
      = .ok (singleCreateManifest,
          (manifestFileOfChangeSets [[⟨0, 1, 0, 0, 0, 0, 0⟩]]).length) :=
  replayManifestFile_refines_applyChangeSets [[⟨0, 1, 0, 0, 0, 0, 0⟩]]
    singleCreateManifest (by decide) (by decide) (by decide)

/-! ### C1: the `uint32` size counterexample -/

/-- A create change for table `i` in partition 0, level 0. -/
def cexChange (i : Nat) : ManifestChange := ⟨0, i, 0, 0, 0, 0, 0⟩

/-- 178 956 970 distinct creates in one change set: the marshalled payload is
`4 + 24·N = 4 294 967 284` bytes, so the framed file is `4 294 967 300` bytes
and `uint32(stat.Size())` wraps to 4 while the record's length field does not
wrap. -/
def cexChangeSet : List ManifestChange := (List.range 178956970).map cexChange

def cexChangeSets : List (List ManifestChange) := [cexChangeSet]

/-- Applying a create change whose table id is fresh in its partition
succeeds and extends that partition's table map. -/
theorem applyManifestChange_create (m : Manifest) (c : ManifestChange)
    (hop : c.operation = manifestChangeCreate)
    (hfree : ∀ part, alistLookup m.partitions c.partitionId = some part →
      alistLookup part.tables c.tableId = none) :
    (applyManifestChange m c).2 = none
    ∧ ∃ levels2, alistLookup (applyManifestChange m c).1.partitions c.partitionId
        = some ⟨levels2,
            alistInsert ((alistLookup m.partitions c.partitionId).getD ⟨[], []⟩).tables
              c.tableId ⟨c.level, c.keyId, c.compression⟩⟩ := by
  cases hfound : alistLookup m.partitions c.partitionId with
  | none =>
    unfold applyManifestChange
    rw [hfound]
    simp only [Option.getD_none, hop, manifestChangeCreate, if_pos]
    simp [alistLookup, alistLookup_insert]
  | some part =>
    have hfree2 := hfree part hfound
    unfold applyManifestChange
    rw [hfound]
    simp only [Option.getD_some, hop, manifestChangeCreate, if_pos]
    simp [hfree2, alistLookup_insert]

/-- Applying a run of creates with consecutive fresh table ids never fails. -/
theorem applyChangesGo_creates (n : Nat) :
    ∀ (k : Nat) (m : Manifest),
      (∀ part, alistLookup m.partitions 0 = some part →
        ∀ i, k ≤ i → alistLookup part.tables i = none) →
      (applyChangesGo m ((List.range' k n).map cexChange)).2 = none := by
  induction n with
  | zero =>
    intro k m _h
    simp [applyChangesGo]
  | succ n ih =>
    intro k m hinv
    rw [List.range'_succ, List.map_cons]
    have hcreate := applyManifestChange_create m (cexChange k) rfl
      (fun part hp => hinv part hp k (le_refl k))
    unfold applyChangesGo
    cases hstep : applyManifestChange m (cexChange k) with
    | mk b err =>
      rw [hstep] at hcreate
      obtain ⟨herr, levels2, hlook⟩ := hcreate
      simp only at herr
      subst herr
      simp only [cexChange] at hlook
      simp only
      refine ih (k + 1) b ?_
      intro part hp i hi
      rw [hlook] at hp
      injection hp with hp
      subst hp
      simp only
      rw [alistLookup_insert_ne _ _ _ _ (by omega)]
      cases hm : alistLookup m.partitions 0 with
      | none => simp [alistLookup]
      | some part0 =>
        simp only [hm, Option.getD_some]
        exact hinv part0 hm i (by omega)

/-- Direct application of the counterexample change sets succeeds. -/
theorem applyChangeSets_cex_ok : (applyChangeSets cexChangeSets).isOk = true := by
  have h0 : (applyChangesGo createManifest cexChangeSet).2 = none := by
    have h := applyChangesGo_creates 178956970 0 createManifest (by
      intro part hp i _hi
      simp [createManifest, alistLookup] at hp)
    rw [← List.range_eq_range'] at h
    exact h
  cases hgo : applyChangesGo createManifest cexChangeSet with
  | mk b err =>
    rw [hgo] at h0
    simp only at h0
    subst h0
    rw [show cexChangeSets = [cexChangeSet] from rfl, applyChangeSets,
      applyChangeSetsFrom, applyChangeSet, hgo]
    rfl

/-- Replay of the counterexample file fails: the record's declared length
(4 294 967 284) exceeds the `uint32`-truncated file size (4). -/
theorem replayManifestFile_cex_error :
    replayManifestFile (manifestFileOfChangeSets cexChangeSets)
      = .error .lengthExceedsFileSize := by
  have hm4 : magicText.length = 4 := rfl
  have hN : cexChangeSet.length = 178956970 := by
    unfold cexChangeSet
    rw [List.length_map, List.length_range]
  have hp : (marshalChangeSet cexChangeSet).length = 4294967284 := by
    rw [marshalChangeSet_length, hN]
  have hfile : manifestFileOfChangeSets cexChangeSets
      = magicText ++ (beBytes 4 manifestVersion ++
        (frameRecord (marshalChangeSet cexChangeSet) ++ [])) := by
    unfold manifestFileOfChangeSets manifestHeader cexChangeSets
    simp [List.append_assoc]
  have hlen : (manifestFileOfChangeSets cexChangeSets).length = 4294967300 := by
    rw [hfile]
    rw [List.length_append, List.length_append, List.length_append, hm4,
      beBytes_length, frameRecord_length, hp, List.length_nil]
  unfold replayManifestFile
  rw [if_neg (by rw [hlen]; norm_num), hlen]
  rw [hfile, take_append_of_length hm4, drop_append_of_length hm4,
    take_append_of_length (beBytes_length 4 _), if_neg (by simp), beUint_beBytes,
    if_neg (by norm_num [manifestVersion, u32Mod])]
  have hdrop8 : (magicText ++ (beBytes 4 manifestVersion ++
      (frameRecord (marshalChangeSet cexChangeSet) ++ []))).drop 8
      = frameRecord (marshalChangeSet cexChangeSet) ++ [] := by
    rw [show (8 : Nat) = 4 + 4 from rfl, ← List.drop_drop, drop_append_of_length hm4]
    exact drop_append_of_length (beBytes_length 4 _)
  rw [hdrop8]
  have hbytes : frameRecord (marshalChangeSet cexChangeSet) ++ []
      = (beBytes 4 (marshalChangeSet cexChangeSet).length
          ++ beBytes 4 (xxh32 (marshalChangeSet cexChangeSet)))
        ++ marshalChangeSet cexChangeSet := by
    unfold frameRecord
    simp [List.append_assoc]
  have hlen8 : (beBytes 4 (marshalChangeSet cexChangeSet).length
      ++ beBytes 4 (xxh32 (marshalChangeSet cexChangeSet))).length = 8 := by simp
  rw [replayRecords, hbytes]
  rw [dif_neg (by simp only [List.length_append, hlen8]; omega)]
  rw [take_append_of_length hlen8,
    take_append_of_length (beBytes_length 4 (marshalChangeSet cexChangeSet).length),
    beUint_beBytes, hp]
  rw [if_pos (by norm_num [u32Mod])]

/-- **C1 (counterexample).** The claim as stated is false: for the single
change set of 178 956 970 creates, direct application succeeds, but
`ReplayManifestFile` on the framed file returns an error (the file is
4 294 967 300 bytes, `uint32(stat.Size())` wraps to 4, and the record length
4 294 967 284 is rejected as larger than the file), so replay does not return
the directly-applied manifest. -/
theorem replayManifestFile_cex :
    (applyChangeSets cexChangeSets).isOk = true
    ∧ (replayManifestFile (manifestFileOfChangeSets cexChangeSets)).isOk = false := by
  refine ⟨applyChangeSets_cex_ok, ?_⟩
  rw [replayManifestFile_cex_error]
  rfl

/-! ### C4: replay error behavior -/

/-- Change sets with fields in the Go types' ranges and `uint32`-safe
marshalled sizes. -/
def wfChangeSets (css : List (List ManifestChange)) : Prop :=
  ∀ cs ∈ css, (∀ c ∈ cs, c.WF) ∧ 4 + 24 * cs.length < u32Mod

instance (css : List (List ManifestChange)) : Decidable (wfChangeSets css) := by
  unfold wfChangeSets
  infer_instance

/-- Processing the header and a well-formed record prefix leaves the replay
loop positioned on the remaining suffix. -/
theorem replayManifestFile_goodFrames (css : List (List ManifestChange)) (m : Manifest)
    (suffix : List Nat)
    (hwf : wfChangeSets css)
    (hsz : ∀ cs ∈ css, (marshalChangeSet cs).length
      ≤ (manifestFileOfChangeSets css ++ suffix).length % u32Mod)
    (happly : applyChangeSetsFrom createManifest css = .ok m) :
    replayManifestFile (manifestFileOfChangeSets css ++ suffix)
      = replayRecords ((manifestFileOfChangeSets css ++ suffix).length % u32Mod) m suffix
          (manifestFileOfChangeSets css).length := by
  have hm4 : magicText.length = 4 := rfl
  have hver : manifestVersion < u32Mod := by norm_num [manifestVersion, u32Mod]
  have e4 : (256 : Nat) ^ 4 = u32Mod := by norm_num [u32Mod]
  have hfile : manifestFileOfChangeSets css ++ suffix
      = magicText ++ (beBytes 4 manifestVersion ++
        ((css.map (fun cs => frameRecord (marshalChangeSet cs))).flatten ++ suffix)) := by
    unfold manifestFileOfChangeSets manifestHeader
    simp [List.append_assoc]
  have hlen : (manifestFileOfChangeSets css ++ suffix).length
      = 8 + ((css.map (fun cs => frameRecord (marshalChangeSet cs))).flatten
          ++ suffix).length := by
    rw [hfile]
    simp only [List.length_append, hm4, beBytes_length]
    omega
  unfold replayManifestFile
  rw [if_neg (by omega)]
  rw [hfile, take_append_of_length hm4,
    drop_append_of_length hm4, take_append_of_length (beBytes_length 4 _),
    if_neg (by simp), beUint_beBytes, e4, Nat.mod_eq_of_lt hver, if_neg (by simp)]
  have hdrop8 : (magicText ++ (beBytes 4 manifestVersion ++
      ((css.map (fun cs => frameRecord (marshalChangeSet cs))).flatten ++ suffix))).drop 8
      = (css.map (fun cs => frameRecord (marshalChangeSet cs))).flatten ++ suffix := by
    rw [show (8 : Nat) = 4 + 4 from rfl, ← List.drop_drop, drop_append_of_length hm4]
    exact drop_append_of_length (beBytes_length 4 _)
  rw [hdrop8]
  have hflen : (magicText ++ (beBytes 4 manifestVersion ++
      ((css.map (fun cs => frameRecord (marshalChangeSet cs))).flatten ++ suffix))).length
      = (manifestFileOfChangeSets css ++ suffix).length := by rw [hfile]
  rw [hflen]
  have hcond : ∀ cs ∈ css, (∀ c ∈ cs, c.WF) ∧ 4 + 24 * cs.length < u32Mod ∧
      (marshalChangeSet cs).length
        ≤ (manifestFileOfChangeSets css ++ suffix).length % u32Mod := by
    intro cs hcs
    exact ⟨(hwf cs hcs).1, (hwf cs hcs).2, hsz cs hcs⟩
  rw [replayRecords_frames css createManifest m
    ((manifestFileOfChangeSets css ++ suffix).length % u32Mod) 8 suffix hcond happly]
  have hglen : (manifestFileOfChangeSets css).length
      = 8 + ((css.map (fun cs => frameRecord (marshalChangeSet cs))).flatten).length := by
    unfold manifestFileOfChangeSets manifestHeader
    rw [List.length_append, List.length_append, hm4, beBytes_length]
  rw [hglen]

/-- **C4.** Replay error behavior: `ReplayManifestFile` returns `errBadMagic`
when the 8-byte header cannot be fully read or the first 4 bytes are not
`"!Bgr"`; `ErrBadManifestVersion` when the 4-byte BE version differs from
`0x01092017`; an error when a record's declared payload length exceeds the
(`uint32`-truncated) file size; `ErrBadManifestChecksum` when a fully-read
payload's xxHash32 differs from the stored checksum; and treats a truncated
trailing record (EOF inside the 8-byte trailer or inside the payload) as
end-of-file, returning success with the offset of the last complete record.
Parts 3-5 are stated after any well-formed prefix of framed change sets. -/
theorem replayManifestFile_error_behavior :
    (∀ file : List Nat, file.length < 8 ∨ file.take 4 ≠ magicText →
      replayManifestFile file = .error .badMagic)
    ∧ (∀ file : List Nat, 8 ≤ file.length → file.take 4 = magicText →
      beUint ((file.drop 4).take 4) ≠ manifestVersion →
      replayManifestFile file = .error .badVersion)
    ∧ (∀ css m suffix, wfChangeSets css →
      (∀ cs ∈ css, (marshalChangeSet cs).length
        ≤ (manifestFileOfChangeSets css ++ suffix).length % u32Mod) →
      applyChangeSetsFrom createManifest css = .ok m →
      8 ≤ suffix.length →
      beUint (suffix.take 4) > (manifestFileOfChangeSets css ++ suffix).length % u32Mod →
      replayManifestFile (manifestFileOfChangeSets css ++ suffix)
        = .error .lengthExceedsFileSize)
    ∧ (∀ css m suffix, wfChangeSets css →
      (∀ cs ∈ css, (marshalChangeSet cs).length
        ≤ (manifestFileOfChangeSets css ++ suffix).length % u32Mod) →
      applyChangeSetsFrom createManifest css = .ok m →
      8 ≤ suffix.length →
      beUint (suffix.take 4) ≤ (manifestFileOfChangeSets css ++ suffix).length % u32Mod →
      beUint (suffix.take 4) ≤ (suffix.drop 8).length →
      xxh32 ((suffix.drop 8).take (beUint (suffix.take 4)))
        ≠ beUint ((suffix.take 8).drop 4) →
      replayManifestFile (manifestFileOfChangeSets css ++ suffix)
        = .error .badChecksum)
    ∧ (∀ css m suffix, wfChangeSets css →
      (∀ cs ∈ css, (marshalChangeSet cs).length
        ≤ (manifestFileOfChangeSets css ++ suffix).length % u32Mod) →
      applyChangeSetsFrom createManifest css = .ok m →
      suffix.length < 8 →
      replayManifestFile (manifestFileOfChangeSets css ++ suffix)
        = .ok (m, (manifestFileOfChangeSets css).length))
    ∧ (∀ css m suffix, wfChangeSets css →
      (∀ cs ∈ css, (marshalChangeSet cs).length
        ≤ (manifestFileOfChangeSets css ++ suffix).length % u32Mod) →
      applyChangeSetsFrom createManifest css = .ok m →
      8 ≤ suffix.length →
      beUint (suffix.take 4) ≤ (manifestFileOfChangeSets css ++ suffix).length % u32Mod →
      (suffix.drop 8).length < beUint (suffix.take 4) →
      replayManifestFile (manifestFileOfChangeSets css ++ suffix)
        = .ok (m, (manifestFileOfChangeSets css).length)) := by
  have htt : ∀ suffix : List Nat, (suffix.take 8).take 4 = suffix.take 4 := by
    intro suffix
    rw [List.take_take]
    norm_num
  refine ⟨?_, ?_, ?_, ?_, ?_, ?_⟩
  · intro file h
    unfold replayManifestFile
    rcases h with h | h
    · rw [if_pos h]
    · by_cases h8 : file.length < 8
      · rw [if_pos h8]
      · rw [if_neg h8, if_pos h]
  · intro file h8 hmagic hver
    unfold replayManifestFile
    rw [if_neg (by omega), if_neg (by simp [hmagic]), if_pos hver]
  · intro css m suffix hwf hsz happly h8 hgt
    rw [replayManifestFile_goodFrames css m suffix hwf hsz happly]
    rw [replayRecords]
    rw [dif_neg (by omega), htt suffix, if_pos hgt]
  · intro css m suffix hwf hsz happly h8 hle hplen hbad
    rw [replayManifestFile_goodFrames css m suffix hwf hsz happly]
    rw [replayRecords]
    rw [dif_neg (by omega), htt suffix, if_neg (by omega), if_neg (by omega),
      if_pos hbad]
  · intro css m suffix hwf hsz happly h8
    rw [replayManifestFile_goodFrames css m suffix hwf hsz happly]
    rw [replayRecords]
    rw [dif_pos h8]
  · intro css m suffix hwf hsz happly h8 hle hshort
    rw [replayManifestFile_goodFrames css m suffix hwf hsz happly]
    rw [replayRecords]
    rw [dif_neg (by omega), htt suffix, if_neg (by omega), if_pos hshort]

/-- Witness for C4 at concrete inputs: a short file, a wrong-magic file, a
version-0 file, a record whose length field exceeds the file size, a record
with a wrong checksum, a truncated trailer and a truncated payload (the last
four after the empty prefix of change sets, i.e. a bare header). -/
theorem replayManifestFile_error_behavior_witness :
    replayManifestFile [88, 88, 88, 88, 1, 9, 32, 23] = .error .badMagic
    ∧ replayManifestFile [33, 66, 103, 114, 0, 0, 0, 0] = .error .badVersion
    ∧ replayManifestFile (manifestFileOfChangeSets []
        ++ [255, 255, 255, 255, 0, 0, 0, 0]) = .error .lengthExceedsFileSize
    ∧ replayManifestFile (manifestFileOfChangeSets []
        ++ [0, 0, 0, 1, 0, 0, 0, 0, 99]) = .error .badChecksum
    ∧ replayManifestFile (manifestFileOfChangeSets [] ++ [1, 2, 3])
        = .ok (createManifest, (manifestFileOfChangeSets []).length)
    ∧ replayManifestFile (manifestFileOfChangeSets []
        ++ [0, 0, 0, 5, 0, 0, 0, 0, 1, 2])
        = .ok (createManifest, (manifestFileOfChangeSets []).length) := by
  obtain ⟨h1, h2, h3, h4, h5, h6⟩ := replayManifestFile_error_behavior
  refine ⟨h1 _ (by decide), h2 _ (by decide) (by decide) (by decide),
    h3 [] createManifest _ (by decide) (by decide) rfl (by decide) (by decide),
    h4 [] createManifest _ (by decide) (by decide) rfl (by decide) (by decide)
      (by decide) (by decide),
    h5 [] createManifest _ (by decide) (by decide) rfl (by decide),
    h6 [] createManifest _ (by decide) (by decide) rfl (by decide) (by decide)
      (by decide)⟩

/-! ## Startup reconciliation: `revertToManifest` (`src/unnamed/part_006`)

The function takes the replayed manifest and `idMap`, the
`partitionId → set<fileId>` map read from the directory listing.  Phase 1
checks every `(partitionId, fileId)` the manifest references against
`idMap` and fails on the first missing one, before any deletion.  Phase 2
walks `idMap` and removes (here: collects) a file exactly when its
*partition* is unknown to the manifest. -/

/-- Go's `idMap[partitionId][id]` membership (a missing partition gives the
nil map, in which nothing is present). -/
def idMapHas (idMap : List (Nat × List Nat)) (pid id : Nat) : Bool :=
  match alistLookup idMap pid with
  | none => false
  | some files => id ∈ files

/-- Phase 1, inner loop: the first table of a partition missing on disk. -/
def findMissingInPartition (idMap : List (Nat × List Nat)) (pid : Nat) :
    List (Nat × TableManifest) → Option Nat
  | [] => none
  | (id, _) :: rest =>
    if idMapHas idMap pid id then findMissingInPartition idMap pid rest else some id

/-- Phase 1, outer loop over the manifest's partitions. -/
def findMissing (idMap : List (Nat × List Nat)) :
    List (Nat × PartitionManifest) → Option Nat
  | [] => none
  | (pid, part) :: rest =>
    match findMissingInPartition idMap pid part.tables with
    | some id => some id
    | none => findMissing idMap rest

/-- Phase 2: the files `os.Remove` is called on — those whose partition the
manifest does not know. -/
def deletedFiles (manifest : Manifest) (idMap : List (Nat × List Nat)) :
    List (Nat × Nat) :=
  (idMap.map (fun e =>
    match alistLookup manifest.partitions e.1 with
    | none => e.2.map (fun id => (e.1, id))
    | some _ => [])).flatten

/-- `revertToManifest`: error `"file does not exist for table <id>"` on the
first manifest entry with no file on disk (before any deletion), otherwise
the list of removed orphan files. -/
def revertToManifest (manifest : Manifest) (idMap : List (Nat × List Nat)) :
    Except String (List (Nat × Nat)) :=
  match findMissing idMap manifest.partitions with
  | some id => .error ("file does not exist for table " ++ toString id)
  | none => .ok (deletedFiles manifest idMap)

theorem findMissingInPartition_sound (idMap : List (Nat × List Nat)) (pid : Nat)
    (tables : List (Nat × TableManifest)) (id : Nat)
    (h : findMissingInPartition idMap pid tables = some id) :
    ∃ tm, (id, tm) ∈ tables ∧ idMapHas idMap pid id = false := by
  induction tables with
  | nil => simp [findMissingInPartition] at h
  | cons hd rest ih =>
    obtain ⟨id2, tm2⟩ := hd
    unfold findMissingInPartition at h
    by_cases hh : idMapHas idMap pid id2
    · rw [if_pos hh] at h
      obtain ⟨tm, hmem, hfalse⟩ := ih h
      exact ⟨tm, by simp [hmem], hfalse⟩
    · rw [if_neg hh] at h
      injection h with h
      subst h
      exact ⟨tm2, by simp, by simpa using hh⟩

theorem findMissingInPartition_complete (idMap : List (Nat × List Nat)) (pid : Nat)
    (tables : List (Nat × TableManifest)) (id : Nat) (tm : TableManifest)
    (hmem : (id, tm) ∈ tables) (hmiss : idMapHas idMap pid id = false) :
    (findMissingInPartition idMap pid tables).isSome := by
  induction tables with
  | nil => simp at hmem
  | cons hd rest ih =>
    obtain ⟨id2, tm2⟩ := hd
    unfold findMissingInPartition
    by_cases hh : idMapHas idMap pid id2
    · rw [if_pos hh]
      rcases List.mem_cons.mp hmem with heq | hmem2
      · injection heq with h1 h2
        subst h1
        rw [hh] at hmiss
        exact absurd hmiss (by simp)
      · exact ih hmem2
    · rw [if_neg hh]
      rfl

theorem findMissing_sound (idMap : List (Nat × List Nat))
    (parts : List (Nat × PartitionManifest)) (id : Nat)
    (h : findMissing idMap parts = some id) :
    ∃ pid part tm, (pid, part) ∈ parts ∧ (id, tm) ∈ part.tables
      ∧ idMapHas idMap pid id = false := by
  induction parts with
  | nil => simp [findMissing] at h
  | cons hd rest ih =>
    obtain ⟨pid2, part2⟩ := hd
    unfold findMissing at h
    cases hfmp : findMissingInPartition idMap pid2 part2.tables with
    | some id2 =>
      rw [hfmp] at h
      simp only at h
      injection h with heq
      obtain ⟨tm, hmem, hfalse⟩ :=
        findMissingInPartition_sound idMap pid2 part2.tables id2 hfmp
      rw [heq] at hmem hfalse
      exact ⟨pid2, part2, tm, by simp, hmem, hfalse⟩
    | none =>
      rw [hfmp] at h
      simp only at h
      obtain ⟨pid, part, tm, hp, ht, hfalse⟩ := ih h
      exact ⟨pid, part, tm, by simp [hp], ht, hfalse⟩

theorem findMissing_complete (idMap : List (Nat × List Nat))
    (parts : List (Nat × PartitionManifest)) (pid : Nat) (part : PartitionManifest)
    (id : Nat) (tm : TableManifest)
    (hp : (pid, part) ∈ parts) (ht : (id, tm) ∈ part.tables)
    (hmiss : idMapHas idMap pid id = false) :
    (findMissing idMap parts).isSome := by
  induction parts with
  | nil => simp at hp
  | cons hd rest ih =>
    obtain ⟨pid2, part2⟩ := hd
    unfold findMissing
    cases hfmp : findMissingInPartition idMap pid2 part2.tables with
    | some id2 => rfl
    | none =>
      simp only
      rcases List.mem_cons.mp hp with heq | hp2
      · have e1 : pid = pid2 := congrArg Prod.fst heq
        have e2 : part = part2 := congrArg Prod.snd heq
        have hx := findMissingInPartition_complete idMap pid part.tables id tm ht hmiss
        rw [e1, e2, hfmp] at hx
        exact absurd hx (by simp)
      · exact ih hp2

/-- Membership in the phase-2 deletion list. -/
theorem deletedFiles_mem (manifest : Manifest) (idMap : List (Nat × List Nat))
    (pid id : Nat) :
    (pid, id) ∈ deletedFiles manifest idMap
      ↔ ∃ files, (pid, files) ∈ idMap ∧ id ∈ files
          ∧ alistLookup manifest.partitions pid = none := by
  unfold deletedFiles
  rw [List.mem_flatten]
  constructor
  · rintro ⟨s, hs, hmem⟩
    rw [List.mem_map] at hs
    obtain ⟨⟨p2, files2⟩, hentry, hfe⟩ := hs
    subst hfe
    cases hl : alistLookup manifest.partitions p2 with
    | none =>
      rw [hl] at hmem
      simp only [List.mem_map] at hmem
      obtain ⟨id2, hid2, heq⟩ := hmem
      injection heq with h1 h2
      subst h1
      subst h2
      exact ⟨files2, hentry, hid2, hl⟩
    | some part =>
      rw [hl] at hmem
      simp at hmem
  · rintro ⟨files, hentry, hid, hnone⟩
    refine ⟨files.map (fun i => (pid, i)), ?_, ?_⟩
    · rw [List.mem_map]
      exact ⟨(pid, files), hentry, by simp [hnone]⟩
    · rw [List.mem_map]
      exact ⟨id, hid, rfl⟩

/-- **C2 (counterexample).** The claim that every table file on disk not
referenced by the manifest is deleted is false: with the manifest holding
partition 0 = {table 7} and the disk holding files 7 and 5 for partition 0,
`revertToManifest` succeeds and deletes nothing — file 5 is unreferenced by
the manifest but survives because its partition is known. -/
theorem revertToManifest_cex :
    revertToManifest ⟨[(0, ⟨[[7]], [(7, ⟨0, 0, 0⟩)]⟩)], 1, 0, 1⟩ [(0, [7, 5])]
        = .ok []
    ∧ alistLookup (⟨[[7]], [(7, ⟨0, 0, 0⟩)]⟩ : PartitionManifest).tables 5 = none := by
  constructor
  · rfl
  · rfl

/-- **C2 (amended).** Startup reconciliation: if some `(partitionId, fileId)`
referenced by the manifest is absent from the directory's id map, the
function fails with the error `"file does not exist for table <fileId>"` (for
one of the missing file ids) and performs no deletions — phase 1 runs before
any deletion; and on success a table file on disk is deleted **iff its
partition is unknown to the manifest** (files in known partitions survive
even when the manifest does not reference them; see the counterexample). -/
theorem revertToManifest_spec (manifest : Manifest) (idMap : List (Nat × List Nat)) :
    ((∃ pid part id tm, (pid, part) ∈ manifest.partitions
        ∧ (id, tm) ∈ part.tables ∧ idMapHas idMap pid id = false) →
      ∃ id2, (∃ pid2 part2 tm2, (pid2, part2) ∈ manifest.partitions
          ∧ (id2, tm2) ∈ part2.tables ∧ idMapHas idMap pid2 id2 = false)
        ∧ revertToManifest manifest idMap
            = .error ("file does not exist for table " ++ toString id2))
    ∧ ((∀ pid part id tm, (pid, part) ∈ manifest.partitions →
        (id, tm) ∈ part.tables → idMapHas idMap pid id = true) →
      revertToManifest manifest idMap = .ok (deletedFiles manifest idMap)
        ∧ ∀ pid id, (pid, id) ∈ deletedFiles manifest idMap
          ↔ ∃ files, (pid, files) ∈ idMap ∧ id ∈ files
              ∧ alistLookup manifest.partitions pid = none) := by
  constructor
  · rintro ⟨pid, part, id, tm, hp, ht, hmiss⟩
    have hsome := findMissing_complete idMap manifest.partitions pid part id tm hp ht hmiss
    cases hfm : findMissing idMap manifest.partitions with
    | none => rw [hfm] at hsome; exact absurd hsome (by simp)
    | some id2 =>
      obtain ⟨pid2, part2, tm2, hp2, ht2, hm2⟩ := findMissing_sound idMap _ id2 hfm
      refine ⟨id2, ⟨pid2, part2, tm2, hp2, ht2, hm2⟩, ?_⟩
      unfold revertToManifest
      rw [hfm]
  · intro hall
    have hfm : findMissing idMap manifest.partitions = none := by
      cases hfm : findMissing idMap manifest.partitions with
      | none => rfl
      | some id2 =>
        obtain ⟨pid2, part2, tm2, hp2, ht2, hm2⟩ := findMissing_sound idMap _ id2 hfm
        rw [hall pid2 part2 id2 tm2 hp2 ht2] at hm2
        exact absurd hm2 (by simp)
    refine ⟨?_, fun pid id => deletedFiles_mem manifest idMap pid id⟩
    unfold revertToManifest
    rw [hfm]

/-- Witness for C2: the spec's own missing-table scenario — the manifest
references `fileId = 7` for partition 0, the disk map is empty, and the call
fails with `"file does not exist for table 7"`; and a success case where the
orphan partition 1 file is deleted. -/
theorem revertToManifest_spec_witness :
    revertToManifest ⟨[(0, ⟨[[7]], [(7, ⟨0, 0, 0⟩)]⟩)], 1, 0, 1⟩ []
        = .error ("file does not exist for table " ++ toString 7)
    ∧ revertToManifest ⟨[(0, ⟨[[7]], [(7, ⟨0, 0, 0⟩)]⟩)], 1, 0, 1⟩
        [(0, [7]), (1, [171])] = .ok [(1, 171)] := by
  constructor
  · obtain ⟨id2, ⟨pid2, part2, tm2, hp2, ht2, hm2⟩, herr⟩ :=
      (revertToManifest_spec ⟨[(0, ⟨[[7]], [(7, ⟨0, 0, 0⟩)]⟩)], 1, 0, 1⟩ []).1
        ⟨0, ⟨[[7]], [(7, ⟨0, 0, 0⟩)]⟩, 7, ⟨0, 0, 0⟩, by decide, by decide, by decide⟩
    have hid : id2 = 7 := by
      rw [List.mem_singleton] at hp2
      have e2 : part2 = ⟨[[7]], [(7, ⟨0, 0, 0⟩)]⟩ := congrArg Prod.snd hp2
      have e2t : part2.tables = [(7, ⟨0, 0, 0⟩)] := by rw [e2]
      rw [e2t, List.mem_singleton] at ht2
      exact congrArg Prod.fst ht2
    rw [hid] at herr
    exact herr
  · have h := (revertToManifest_spec ⟨[(0, ⟨[[7]], [(7, ⟨0, 0, 0⟩)]⟩)], 1, 0, 1⟩
      [(0, [7]), (1, [171])]).2 (by
        intro pid part id tm hp ht
        rw [List.mem_singleton] at hp
        have e1 : pid = 0 := congrArg Prod.fst hp
        have e2 : part = ⟨[[7]], [(7, ⟨0, 0, 0⟩)]⟩ := congrArg Prod.snd hp
        have e2t : part.tables = [(7, ⟨0, 0, 0⟩)] := by rw [e2]
        rw [e2t, List.mem_singleton] at ht
        have e3 : id = 7 := congrArg Prod.fst ht
        rw [e1, e3]
        decide)
    rw [h.1]
    rfl

/-! ## `manifestFile.addChanges` (`src/manifest.go`) -/

/-- `newCreateChange` (with `EncryptionAlgorithmAES = 0`). -/
def newCreateChange (pid tid level keyId compression : Nat) : ManifestChange :=
  ⟨pid, tid, manifestChangeCreate, level, keyId, 0, compression⟩

/-- `Manifest.asChanges`: one create change per live table.  The Go code
iterates two maps in unspecified order; the embedding iterates the
association lists in list order (one of the possible orders). -/
def asChanges (m : Manifest) : List ManifestChange :=
  (m.partitions.map (fun pe =>
    pe.2.tables.map (fun te =>
      newCreateChange pe.1 te.1 te.2.level te.2.keyId te.2.compression))).flatten

/-- The file `helpRewrite` produces: header plus one framed change set
re-creating every live table. -/
def rewriteFileBytes (m : Manifest) : List Nat :=
  manifestHeader ++ frameRecord (marshalChangeSet (asChanges m))

/-- The in-memory state of a `manifestFile` that `addChanges` reads and
writes: the tracked manifest, the file contents, the rewrite threshold
(a Go `int`) and the in-memory flag. -/
structure ManifestFileState where
  manifest : Manifest
  file : List Nat
  deletionsRewriteThreshold : Int
  inMemory : Bool
deriving Repr, DecidableEq

/-- The outcome of `addChanges`: the state afterwards, whether
`z.FileSync(mf.file)` ran, and the returned error. -/
structure AddChangesResult where
  state : ManifestFileState
  fsynced : Bool
  err : Option String
deriving Repr, DecidableEq

/-- `manifestFile.addChanges`: nothing at all in in-memory mode; otherwise
apply the change set to the in-memory manifest (on failure return that error,
keeping the partially-applied manifest, without fsync), then either rewrite —
when `Deletions > deletionsRewriteThreshold && Deletions > 10*(Creations -
Deletions)` — or append one `[length][checksum][payload]` record, and fsync. -/
def addChanges (s : ManifestFileState) (changes : List ManifestChange) :
    AddChangesResult :=
  if s.inMemory then ⟨s, false, none⟩
  else
    match applyChangesGo s.manifest changes with
    | (m2, some e) => ⟨{ s with manifest := m2 }, false, some e⟩
    | (m2, none) =>
      if m2.deletions > s.deletionsRewriteThreshold ∧
          m2.deletions > 10 * (m2.creations - m2.deletions) then
        ⟨{ s with
            manifest := { m2 with creations := m2.totalTables, deletions := 0 }
            file := rewriteFileBytes m2 }, true, none⟩
      else
        ⟨{ s with
            manifest := m2
            file := s.file ++ frameRecord (marshalChangeSet changes) }, true, none⟩

/-- **C3 (counterexample).** The claim that `addChanges` always first applies
the change set to the in-memory manifest (with only the fsync omitted in
in-memory mode) is false: in in-memory mode `addChanges` returns immediately
and applies nothing, although applying the change set would have succeeded
and changed the manifest. -/
theorem addChanges_inMemory_cex :
    addChanges ⟨createManifest, [], 10000, true⟩ [⟨0, 1, 0, 0, 0, 0, 0⟩]
      = ⟨⟨createManifest, [], 10000, true⟩, false, none⟩
    ∧ (applyChangesGo createManifest [⟨0, 1, 0, 0, 0, 0, 0⟩]).2 = none
    ∧ (applyChangesGo createManifest [⟨0, 1, 0, 0, 0, 0, 0⟩]).1 ≠ createManifest := by
  refine ⟨rfl, rfl, ?_⟩
  decide

/-- **C3 (amended).** `addChanges` semantics: in in-memory mode the call is a
no-op returning nil (nothing is applied and nothing is synced); otherwise it
first applies the change set to the in-memory manifest (failing and
returning that error, without fsync, if application fails), then rewrites
the manifest file if and only if, after application,
`Deletions > deletionsRewriteThreshold` AND
`Deletions > 10 × (Creations − Deletions)` (resetting `Creations :=
TotalTables`, `Deletions := 0`), otherwise appends exactly one
`[4-byte BE length][4-byte BE xxHash32][payload]` record to the file, and
always ends with fsync of the file. -/
theorem addChanges_spec (s : ManifestFileState) (changes : List ManifestChange) :
    (s.inMemory = true → addChanges s changes = ⟨s, false, none⟩)
    ∧ (s.inMemory = false →
      (∀ e m2, applyChangesGo s.manifest changes = (m2, some e) →
        addChanges s changes = ⟨{ s with manifest := m2 }, false, some e⟩)
      ∧ (∀ m2, applyChangesGo s.manifest changes = (m2, none) →
        ((m2.deletions > s.deletionsRewriteThreshold ∧
            m2.deletions > 10 * (m2.creations - m2.deletions)) →
          addChanges s changes = ⟨{ s with
              manifest := { m2 with creations := m2.totalTables, deletions := 0 }
              file := rewriteFileBytes m2 }, true, none⟩)
        ∧ (¬(m2.deletions > s.deletionsRewriteThreshold ∧
            m2.deletions > 10 * (m2.creations - m2.deletions)) →
          addChanges s changes = ⟨{ s with
              manifest := m2
              file := s.file ++ (beBytes 4 (marshalChangeSet changes).length
                ++ beBytes 4 (xxh32 (marshalChangeSet changes))
                ++ marshalChangeSet changes) }, true, none⟩))) := by
  refine ⟨fun hmem => ?_, fun hmem => ⟨fun e m2 happ => ?_, fun m2 happ => ⟨fun hcond => ?_, fun hcond => ?_⟩⟩⟩
  · unfold addChanges
    rw [if_pos hmem]
  · unfold addChanges
    rw [if_neg (by rw [hmem]; simp), happ]
  · unfold addChanges
    rw [if_neg (by rw [hmem]; simp), happ]
    simp only
    rw [if_pos hcond]
  · unfold addChanges
    rw [if_neg (by rw [hmem]; simp), happ]
    simp only
    rw [if_neg hcond]
    unfold frameRecord
    rw [List.append_assoc]

/-- Witness for C3 at concrete states: the in-memory no-op, an append after a
successful create, and a rewrite after a delete that trips a threshold of
−1. -/
theorem addChanges_spec_witness :
    addChanges ⟨createManifest, [], 10000, true⟩ [⟨0, 1, 0, 0, 0, 0, 0⟩]
      = ⟨⟨createManifest, [], 10000, true⟩, false, none⟩
    ∧ addChanges ⟨createManifest, manifestHeader, 10000, false⟩ [⟨0, 1, 0, 0, 0, 0, 0⟩]
      = ⟨⟨singleCreateManifest, manifestHeader
          ++ (beBytes 4 (marshalChangeSet [⟨0, 1, 0, 0, 0, 0, 0⟩]).length
            ++ beBytes 4 (xxh32 (marshalChangeSet [⟨0, 1, 0, 0, 0, 0, 0⟩]))
            ++ marshalChangeSet [⟨0, 1, 0, 0, 0, 0, 0⟩]), 10000, false⟩, true, none⟩
    ∧ addChanges ⟨singleCreateManifest, manifestHeader, -1, false⟩ [⟨0, 1, 1, 0, 0, 0, 0⟩]
      = ⟨⟨{ (applyChangesGo singleCreateManifest [⟨0, 1, 1, 0, 0, 0, 0⟩]).1 with
          creations := 0, deletions := 0 },
          rewriteFileBytes (applyChangesGo singleCreateManifest [⟨0, 1, 1, 0, 0, 0, 0⟩]).1,
          -1, false⟩, true, none⟩ := by
  refine ⟨(addChanges_spec ⟨createManifest, [], 10000, true⟩ [⟨0, 1, 0, 0, 0, 0, 0⟩]).1 rfl,
    ?_, ?_⟩
  · have h := ((addChanges_spec ⟨createManifest, manifestHeader, 10000, false⟩
      [⟨0, 1, 0, 0, 0, 0, 0⟩]).2 rfl).2 singleCreateManifest (by decide)
    exact h.2 (by decide)
  · have h := ((addChanges_spec ⟨singleCreateManifest, manifestHeader, -1, false⟩
      [⟨0, 1, 1, 0, 0, 0, 0⟩]).2 rfl).2
        (applyChangesGo singleCreateManifest [⟨0, 1, 1, 0, 0, 0, 0⟩]).1 (by decide)
    have h2 := h.1 (by decide)
    rw [h2]
    decide

/-! ## Key registry: `OpenKeyRegistry` (`src/key_registry.go`) -/

inductive KeyRegistryError where
  | invalidEncryptionKey
deriving Repr, DecidableEq

/-- The fields of `KeyRegistryOptions` that `OpenKeyRegistry` consults. -/
structure KeyRegistryOptions where
  readOnly : Bool
  encryptionKey : List Nat
  inMemory : Bool
deriving Repr, DecidableEq

/-- The in-memory registry `newKeyRegistry` builds: empty data-key map,
`nextKeyId = 0`, and the options. -/
structure KeyRegistry where
  dataKeyPartitions : List Nat
  nextKeyId : Nat
  options : KeyRegistryOptions
deriving Repr, DecidableEq

def newKeyRegistry (opts : KeyRegistryOptions) : KeyRegistry := ⟨[], 0, opts⟩

/-- `OpenKeyRegistry`, with the file system abstracted to whether the
`KEYREGISTRY` file exists.  The Go code checks the key length (16, 24 or 32
when non-empty, else `ErrInvalidEncryptionKey`), returns a fresh registry
for in-memory mode, returns a fresh in-memory registry when the file is
missing in read-only mode — and then, both when the file is missing in
read-write mode and when the file exists, falls through to `return nil,
nil`, despite its doc comment promising to open or create the registry. -/
def openKeyRegistry (opts : KeyRegistryOptions) (fileExists : Bool) :
    Except KeyRegistryError (Option KeyRegistry) :=
  if 0 < opts.encryptionKey.length ∧ opts.encryptionKey.length ≠ 16 ∧
      opts.encryptionKey.length ≠ 24 ∧ opts.encryptionKey.length ≠ 32 then
    .error .invalidEncryptionKey
  else if opts.inMemory then .ok (some (newKeyRegistry opts))
  else if fileExists = false ∧ opts.readOnly = true then
    .ok (some (newKeyRegistry opts))
  else .ok none

/-- **C9.** `OpenKeyRegistry` behavior at the three cases the claim covers:
a non-empty key of invalid length is rejected with
`ErrInvalidEncryptionKey`; read-only mode with the registry file missing
returns a fresh in-memory registry with no error; but read-write mode with
the file missing returns `(nil, nil)` — no registry is created, no file is
written, no prologue is produced — contradicting the claim (and the
function's own documentation), because the creation path is an unimplemented
fall-through. -/
theorem openKeyRegistry_behavior :
    openKeyRegistry ⟨false, [1, 2, 3], false⟩ false = .error .invalidEncryptionKey
    ∧ openKeyRegistry ⟨true, [], false⟩ false
        = .ok (some (newKeyRegistry ⟨true, [], false⟩))
    ∧ openKeyRegistry ⟨false, [], false⟩ false = .ok none := by
  refine ⟨rfl, rfl, rfl⟩

/-! ## Skiplist: ordering lemmas for `CompareKeys` -/

theorem compareKeys_def (k1 k2 : List Nat) :
    compareKeys k1 k2
      = if byteCompare (k1.take (k1.length - 8)) (k2.take (k2.length - 8)) ≠ 0
        then byteCompare (k1.take (k1.length - 8)) (k2.take (k2.length - 8))
        else byteCompare (k1.drop (k1.length - 8)) (k2.drop (k2.length - 8)) := rfl

theorem compareKeys_eq_zero_iff (k1 k2 : List Nat) :
    compareKeys k1 k2 = 0 ↔ k1 = k2 := by
  rw [compareKeys_def]
  by_cases hc : byteCompare (k1.take (k1.length - 8)) (k2.take (k2.length - 8)) = 0
  · rw [if_neg (by simp [hc])]
    rw [byteCompare_eq_zero_iff] at hc
    rw [byteCompare_eq_zero_iff]
    constructor
    · intro hs
      calc k1 = k1.take (k1.length - 8) ++ k1.drop (k1.length - 8) :=
            (List.take_append_drop _ k1).symm
        _ = k2.take (k2.length - 8) ++ k2.drop (k2.length - 8) := by rw [hc, hs]
        _ = k2 := List.take_append_drop _ k2
    · intro h
      rw [h]
  · rw [if_pos hc]
    constructor
    · intro h
      exact absurd h hc
    · intro h
      rw [h] at hc
      exact absurd ((byteCompare_eq_zero_iff _ _).mpr rfl) hc

theorem compareKeys_swap (k1 k2 : List Nat) :
    compareKeys k1 k2 = -compareKeys k2 k1 := by
  rw [compareKeys_def, compareKeys_def]
  by_cases hc : byteCompare (k1.take (k1.length - 8)) (k2.take (k2.length - 8)) = 0
  · have hc2 : byteCompare (k2.take (k2.length - 8)) (k1.take (k1.length - 8)) = 0 := by
      rw [byteCompare_swap, hc]
      rfl
    rw [if_neg (by simp [hc]), if_neg (by simp [hc2]), byteCompare_swap]
  · have hc2 : ¬ byteCompare (k2.take (k2.length - 8)) (k1.take (k1.length - 8)) = 0 := by
      intro h
      rw [byteCompare_swap, h] at hc
      exact hc (by norm_num)
    rw [if_pos hc, if_pos hc2, byteCompare_swap]

theorem compareKeys_cases (k1 k2 : List Nat) :
    compareKeys k1 k2 = -1 ∨ compareKeys k1 k2 = 0 ∨ compareKeys k1 k2 = 1 := by
  rw [compareKeys_def]
  by_cases hc : byteCompare (k1.take (k1.length - 8)) (k2.take (k2.length - 8)) = 0
  · rw [if_neg (by simp [hc])]
    exact byteCompare_cases _ _
  · rw [if_pos hc]
    exact byteCompare_cases _ _

theorem compareKeys_neg_of_lt {k1 k2 : List Nat} (h : compareKeys k1 k2 < 0) :
    compareKeys k1 k2 = -1 := by
  rcases compareKeys_cases k1 k2 with h2 | h2 | h2 <;> omega

theorem byteCompare_neg_of_lt {a b : List Nat} (h : byteCompare a b < 0) :
    byteCompare a b = -1 := by
  rcases byteCompare_cases a b with h2 | h2 | h2 <;> omega

theorem compareKeys_lt_trans {a b c : List Nat}
    (h1 : compareKeys a b < 0) (h2 : compareKeys b c < 0) : compareKeys a c < 0 := by
  have h1' := compareKeys_neg_of_lt h1
  have h2' := compareKeys_neg_of_lt h2
  rw [compareKeys_def] at h1' h2' ⊢
  by_cases pab : byteCompare (a.take (a.length - 8)) (b.take (b.length - 8)) = 0
  · rw [if_neg (by simp [pab])] at h1'
    rw [byteCompare_eq_zero_iff] at pab
    by_cases pbc : byteCompare (b.take (b.length - 8)) (c.take (c.length - 8)) = 0
    · rw [if_neg (by simp [pbc])] at h2'
      rw [byteCompare_eq_zero_iff] at pbc
      have pac : byteCompare (a.take (a.length - 8)) (c.take (c.length - 8)) = 0 := by
        rw [byteCompare_eq_zero_iff, pab, pbc]
      rw [if_neg (by simp [pac])]
      have := byteCompare_trans_neg h1' h2'
      omega
    · rw [if_pos pbc] at h2'
      have pac : byteCompare (a.take (a.length - 8)) (c.take (c.length - 8)) = -1 := by
        rw [pab]
        exact h2'
      rw [if_pos (by rw [pac]; norm_num), pac]
      norm_num
  · rw [if_pos pab] at h1'
    by_cases pbc : byteCompare (b.take (b.length - 8)) (c.take (c.length - 8)) = 0
    · rw [byteCompare_eq_zero_iff] at pbc
      have pac : byteCompare (a.take (a.length - 8)) (c.take (c.length - 8)) = -1 := by
        rw [← pbc]
        exact h1'
      rw [if_pos (by rw [pac]; norm_num), pac]
      norm_num
    · rw [if_pos pbc] at h2'
      have pac := byteCompare_trans_neg h1' h2'
      rw [if_pos (by rw [pac]; norm_num), pac]
      norm_num

/-- `SameKey` on two timestamped keys holds exactly for equal user keys. -/
theorem sameKey_keyWithTs (u1 u2 : List Nat) (t1 t2 : Nat) :
    sameKey (keyWithTs u1 t1) (keyWithTs u2 t2) = true ↔ u1 = u2 := by
  unfold sameKey
  rw [parseKey_keyWithTs, parseKey_keyWithTs]
  by_cases hl : (keyWithTs u1 t1).length = (keyWithTs u2 t2).length
  · rw [if_neg (by simp [hl])]
    simp
  · rw [if_pos (by simp at hl ⊢; omega)]
    constructor
    · intro h
      exact absurd h (by simp)
    · intro h
      rw [keyWithTs_length, keyWithTs_length, h] at hl
      exact absurd rfl hl

/-- The `CompareKeys` trichotomy on timestamped keys, in terms of user keys
and timestamps. -/
theorem compareKeys_kwt_lt_iff (u1 u2 : List Nat) (t1 t2 : Nat)
    (h1 : t1 < u64Mod) (h2 : t2 < u64Mod) :
    compareKeys (keyWithTs u1 t1) (keyWithTs u2 t2) < 0
      ↔ (byteCompare u1 u2 = -1 ∨ (u1 = u2 ∧ t2 < t1)) := by
  rw [compareKeys_keyWithTs u1 u2 t1 t2 h1 h2]
  by_cases hbc : byteCompare u1 u2 = 0
  · rw [if_neg (by simp [hbc])]
    rw [byteCompare_eq_zero_iff] at hbc
    unfold cmpInt
    constructor
    · intro h
      by_cases hlt : t2 < t1
      · exact Or.inr ⟨hbc, hlt⟩
      · rw [if_neg hlt] at h
        split at h <;> omega
    · rintro (h | ⟨_, hlt⟩)
      · have hz : byteCompare u2 u2 = 0 := (byteCompare_eq_zero_iff _ _).mpr rfl
        rw [hbc, hz] at h
        exact absurd h (by norm_num)
      · rw [if_pos hlt]
        norm_num
  · rw [if_pos hbc]
    constructor
    · intro h
      exact Or.inl (byteCompare_neg_of_lt h)
    · rintro (h | ⟨heq, _⟩)
      · rw [h]
        norm_num
      · rw [heq] at hbc
        exact absurd ((byteCompare_eq_zero_iff _ _).mpr rfl) hbc

theorem cmpInt_lt_zero_iff (x y : Nat) : cmpInt x y < 0 ↔ x < y := by
  unfold cmpInt
  split <;> rename_i h
  · omega
  · split <;> rename_i h2 <;> omega

theorem cmpInt_le_zero_iff (x y : Nat) : cmpInt x y ≤ 0 ↔ x ≤ y := by
  unfold cmpInt
  split <;> rename_i h
  · omega
  · split <;> rename_i h2 <;> omega

theorem compareKeys_pos_swap (a b : List Nat) :
    0 < compareKeys a b ↔ compareKeys b a < 0 := by
  rw [compareKeys_swap a b]
  omega

/-- When a `KeyWithTs` key meets an arbitrary key whose user prefix differs,
`CompareKeys` is decided by the user prefixes alone. -/
theorem compareKeys_kwt_left (u : List Nat) (t : Nat) (k0 : List Nat)
    (h : byteCompare u (k0.take (k0.length - 8)) ≠ 0) :
    compareKeys (keyWithTs u t) k0 = byteCompare u (k0.take (k0.length - 8)) := by
  rw [compareKeys_def, keyWithTs_take]
  rw [if_pos h]

/-- A key at least as large as `KeyWithTs uq tq` (for nonempty `uq`) whose
`SameKey` test fails has a strictly larger user prefix. -/
theorem byteCompare_neg_of_le_not_sameKey {uq k0 : List Nat} {tq : Nat}
    (hne : uq ≠ [])
    (hle : compareKeys (keyWithTs uq tq) k0 ≤ 0)
    (hsk : ¬ sameKey (keyWithTs uq tq) k0 = true) :
    byteCompare uq (k0.take (k0.length - 8)) = -1 := by
  by_cases h0 : byteCompare uq (k0.take (k0.length - 8)) = 0
  · exfalso
    rw [byteCompare_eq_zero_iff] at h0
    have hlen : (k0.take (k0.length - 8)).length = k0.length - 8 := by
      rw [List.length_take]
      omega
    have hu : 0 < uq.length := List.length_pos.mpr hne
    have hk0len : k0.length = uq.length + 8 := by
      rw [← h0] at hlen
      omega
    apply hsk
    unfold sameKey
    rw [if_neg (by rw [keyWithTs_length, hk0len]; simp)]
    rw [parseKey_keyWithTs]
    unfold parseKey
    rw [← h0]
    simp
  · rw [compareKeys_kwt_left uq tq k0 h0] at hle
    rcases byteCompare_cases uq (k0.take (k0.length - 8)) with h | h | h
    · exact h
    · exact absurd h h0
    · rw [h] at hle
      omega

/-! ## Skiplist: abstract node list built by `Put`, queried by `Get`

The skiplist of `src/skiplist/skiplist.go` keeps nodes strictly sorted by
`z.CompareKeys` of their stored (timestamped) keys. `Put` either overwrites
the value of the node holding an equal key (`findSpliceForLevel` returning
`outBefore == outAfter`, followed by `setValue`) or splices a fresh node
into its sorted position; `Get` runs `findNear(key, less=false,
allowEqual=true)` — at the base level a rightward scan that stops at the
first node whose key is not smaller than the query — then checks
`z.SameKey` and attaches `z.ParseTs` of the stored key as the `Version`.
The embedding below models the node list directly. -/

/-- The value fields stored in the arena for a node: `z.ValueStruct` without
`Version`, which is never serialized (`src/unnamed/part_014`). -/
structure SValue where
  meta : Nat
  userMeta : Nat
  expiresAt : Nat
  value : List Nat
deriving Repr, DecidableEq

/-- `z.ValueStruct` as returned by `SkipList.Get`, including `Version`. -/
structure ValueStruct where
  meta : Nat
  userMeta : Nat
  expiresAt : Nat
  value : List Nat
  version : Nat
deriving Repr, DecidableEq

/-- The zero `z.ValueStruct{}` returned when `Get` finds no match. -/
def zeroValueStruct : ValueStruct := ⟨0, 0, 0, [], 0⟩

/-- `SkipList.Put key value` on the sorted node list: overwrite the value of
an equal-key node (keeping its stored key bytes), else insert at the sorted
position. -/
def putList (k : List Nat) (v : SValue) : List (List Nat × SValue) → List (List Nat × SValue)
  | [] => [(k, v)]
  | e :: rest =>
    if compareKeys k e.1 = 0 then (e.1, v) :: rest
    else if compareKeys k e.1 < 0 then (k, v) :: e :: rest
    else e :: putList k v rest

/-- `findNear(key, less=false, allowEqual=true)` on the node list: the base
level scan moves right while `CompareKeys key next.key > 0` and returns the
node it stops at (`nil` past the end). -/
def findGE (q : List Nat) : List (List Nat × SValue) → Option (List Nat × SValue)
  | [] => none
  | e :: rest => if 0 < compareKeys q e.1 then findGE q rest else some e

/-- `SkipList.Get`: `findNear(key, false, true)`, then the `SameKey` guard,
then the stored value with `Version = z.ParseTs(nextKey)`. -/
def getList (q : List Nat) (l : List (List Nat × SValue)) : ValueStruct :=
  match findGE q l with
  | none => zeroValueStruct
  | some e =>
    if sameKey q e.1 then ⟨e.2.meta, e.2.userMeta, e.2.expiresAt, e.2.value, parseTs e.1⟩
    else zeroValueStruct

/-- The node list produced by a sequence of `Put(KeyWithTs uk ts, v)` calls
on an empty skiplist. -/
def buildList (puts : List (List Nat × Nat × SValue)) : List (List Nat × SValue) :=
  puts.foldl (fun l p => putList (keyWithTs p.1 p.2.1) p.2.2 l) []

/-- Modelled from the spec: one step of the claimed `Get` semantics — scan
the puts, keeping the entry with user key `uq` and the highest timestamp
`≤ tq`, the later of equal-timestamp puts winning. -/
def specStep (uq : List Nat) (tq : Nat) (acc : Option (Nat × SValue))
    (p : List Nat × Nat × SValue) : Option (Nat × SValue) :=
  match acc with
  | none => if p.1 = uq ∧ p.2.1 ≤ tq then some (p.2.1, p.2.2) else none
  | some (t0, v0) =>
    if p.1 = uq ∧ p.2.1 ≤ tq ∧ t0 ≤ p.2.1 then some (p.2.1, p.2.2) else some (t0, v0)

/-- Modelled from the spec: the claimed result of `Get(KeyWithTs uq tq)` —
the winning put's value with its timestamp as `Version`, else the zero
struct. -/
def specGet (uq : List Nat) (tq : Nat) (puts : List (List Nat × Nat × SValue)) : ValueStruct :=
  match puts.foldl (specStep uq tq) none with
  | none => zeroValueStruct
  | some (t, v) => ⟨v.meta, v.userMeta, v.expiresAt, v.value, t⟩

theorem findGE_some_ge (q : List Nat) (l : List (List Nat × SValue))
    (e : List Nat × SValue) (h : findGE q l = some e) : compareKeys q e.1 ≤ 0 := by
  induction l with
  | nil => simp [findGE] at h
  | cons hd tl ih =>
    rw [findGE] at h
    by_cases hc : 0 < compareKeys q hd.1
    · rw [if_pos hc] at h
      exact ih h
    · rw [if_neg hc] at h
      injection h with h
      rw [← h]
      omega

/-- How one `Put` transforms the `findNear(·, false, true)` result, for an
arbitrary node list. -/
theorem findGE_putList (q k : List Nat) (v : SValue) (l : List (List Nat × SValue)) :
    findGE q (putList k v l)
      = if compareKeys k q < 0 then findGE q l
        else match findGE q l with
          | none => some (k, v)
          | some e => if compareKeys k e.1 ≤ 0 then some (k, v) else some e := by
  induction l with
  | nil =>
    show (if 0 < compareKeys q k then (none : Option (List Nat × SValue)) else some (k, v))
        = if compareKeys k q < 0 then none else some (k, v)
    by_cases hkq : compareKeys k q < 0
    · rw [if_pos ((compareKeys_pos_swap q k).mpr hkq), if_pos hkq]
    · rw [if_neg (fun hc => hkq ((compareKeys_pos_swap q k).mp hc)), if_neg hkq]
  | cons hd tl ih =>
    rcases compareKeys_cases k hd.1 with hneg | hzero | hpos
    · have h0 : ¬ compareKeys k hd.1 = 0 := by rw [hneg]; norm_num
      have hlt : compareKeys k hd.1 < 0 := by rw [hneg]; norm_num
      rw [putList, if_neg h0, if_pos hlt]
      by_cases hkq : compareKeys k q < 0
      · have hq0 : 0 < compareKeys q k := (compareKeys_pos_swap q k).mpr hkq
        simp [findGE, hq0, hkq]
      · by_cases hq0 : 0 < compareKeys q hd.1
        · exact absurd (compareKeys_lt_trans hlt ((compareKeys_pos_swap q hd.1).mp hq0)) hkq
        · have hqk : ¬ 0 < compareKeys q k := fun hc => hkq ((compareKeys_pos_swap q k).mp hc)
          simp [findGE, hq0, hkq, hqk, le_of_lt hlt]
    · have heq : k = hd.1 := (compareKeys_eq_zero_iff _ _).mp hzero
      rw [putList, if_pos hzero]
      by_cases hq0 : 0 < compareKeys q hd.1
      · have hkq : compareKeys k q < 0 := by
          rw [heq]
          exact (compareKeys_pos_swap q hd.1).mp hq0
        simp [findGE, hq0, hkq]
      · have hkq : ¬ compareKeys k q < 0 := by
          rw [heq]
          intro hc
          exact hq0 ((compareKeys_pos_swap q hd.1).mpr hc)
        simp [findGE, hq0, hkq, hzero, heq]
        rw [if_neg (heq ▸ hkq),
          if_pos (le_of_eq ((compareKeys_eq_zero_iff hd.1 hd.1).mpr rfl))]
    · have h0 : ¬ compareKeys k hd.1 = 0 := by rw [hpos]; norm_num
      have hnlt : ¬ compareKeys k hd.1 < 0 := by rw [hpos]; norm_num
      rw [putList, if_neg h0, if_neg hnlt]
      by_cases hq0 : 0 < compareKeys q hd.1
      · rw [findGE, if_pos hq0, ih, findGE, if_pos hq0]
      · have hn : ¬ compareKeys k hd.1 ≤ 0 := by rw [hpos]; norm_num
        simp [findGE, hq0, hn]

theorem compareKeys_kwt_same (u : List Nat) (t1 t2 : Nat)
    (h1 : t1 < u64Mod) (h2 : t2 < u64Mod) :
    compareKeys (keyWithTs u t1) (keyWithTs u t2) = cmpInt t2 t1 := by
  rw [compareKeys_keyWithTs u u t1 t2 h1 h2]
  rw [(byteCompare_eq_zero_iff u u).mpr rfl]
  simp

/-- The invariant tying the node list built so far to the spec-side
accumulator: with no candidate yet, whatever `findGE` returns fails the
`SameKey` test; with candidate `(t, v)`, `findGE` returns exactly the node
`(KeyWithTs uq t, v)`. -/
def skInv (uq : List Nat) (tq : Nat) (l : List (List Nat × SValue))
    (acc : Option (Nat × SValue)) : Prop :=
  match acc with
  | none =>
    ∀ e, findGE (keyWithTs uq tq) l = some e → ¬ sameKey (keyWithTs uq tq) e.1 = true
  | some (t, v) =>
    findGE (keyWithTs uq tq) l = some (keyWithTs uq t, v) ∧ t ≤ tq ∧ t < u64Mod

theorem skInv_of_findGE_eq {uq : List Nat} {tq : Nat}
    {l l' : List (List Nat × SValue)} {acc : Option (Nat × SValue)}
    (hfg : findGE (keyWithTs uq tq) l' = findGE (keyWithTs uq tq) l)
    (hinv : skInv uq tq l acc) : skInv uq tq l' acc := by
  cases acc with
  | none =>
    intro e he
    rw [hfg] at he
    exact hinv e he
  | some tv =>
    obtain ⟨t0, v0⟩ := tv
    obtain ⟨hfe, h1, h2⟩ := hinv
    exact ⟨by rw [hfg]; exact hfe, h1, h2⟩

theorem skInv_step (uq : List Nat) (tq : Nat) (hq : uq ≠ []) (htq : tq < u64Mod)
    (l : List (List Nat × SValue)) (acc : Option (Nat × SValue))
    (uk : List Nat) (t : Nat) (v : SValue) (ht : t < u64Mod)
    (hinv : skInv uq tq l acc) :
    skInv uq tq (putList (keyWithTs uk t) v l) (specStep uq tq acc (uk, t, v)) := by
  by_cases huk : uk = uq
  · rw [huk]
    by_cases hT : t ≤ tq
    · have hnlt : ¬ compareKeys (keyWithTs uq t) (keyWithTs uq tq) < 0 := by
        rw [compareKeys_kwt_same uq t tq ht htq, cmpInt_lt_zero_iff]
        omega
      cases acc with
      | none =>
        have hstep : specStep uq tq none (uq, t, v) = some (t, v) := by
          simp [specStep, hT]
        rw [hstep]
        refine ⟨?_, hT, ht⟩
        rw [findGE_putList, if_neg hnlt]
        cases hfe : findGE (keyWithTs uq tq) l with
        | none => rfl
        | some e =>
          have hsk := hinv e hfe
          have hge := findGE_some_ge _ _ _ hfe
          have hpre := byteCompare_neg_of_le_not_sameKey hq hge hsk
          have hck : compareKeys (keyWithTs uq t) e.1 = -1 := by
            rw [compareKeys_kwt_left uq t e.1 (by rw [hpre]; norm_num)]
            exact hpre
          dsimp only
          rw [if_pos (by rw [hck]; norm_num)]
      | some tv =>
        obtain ⟨t0, v0⟩ := tv
        obtain ⟨hfe, ht0q, ht0m⟩ := hinv
        by_cases ht0 : t0 ≤ t
        · have hstep : specStep uq tq (some (t0, v0)) (uq, t, v) = some (t, v) := by
            simp [specStep, hT, ht0]
          rw [hstep]
          refine ⟨?_, hT, ht⟩
          rw [findGE_putList, if_neg hnlt, hfe]
          dsimp only
          rw [if_pos (by
            rw [compareKeys_kwt_same uq t t0 ht ht0m, cmpInt_le_zero_iff]
            omega)]
        · have hstep : specStep uq tq (some (t0, v0)) (uq, t, v) = some (t0, v0) := by
            simp [specStep, ht0]
          rw [hstep]
          refine ⟨?_, ht0q, ht0m⟩
          rw [findGE_putList, if_neg hnlt, hfe]
          dsimp only
          rw [if_neg (by
            rw [compareKeys_kwt_same uq t t0 ht ht0m, cmpInt_le_zero_iff]
            omega)]
    · have hlt : compareKeys (keyWithTs uq t) (keyWithTs uq tq) < 0 := by
        rw [compareKeys_kwt_same uq t tq ht htq, cmpInt_lt_zero_iff]
        omega
      have hstep : specStep uq tq acc (uq, t, v) = acc := by
        cases acc with
        | none => simp [specStep, hT]
        | some tv =>
          obtain ⟨t0, v0⟩ := tv
          simp [specStep, hT]
      rw [hstep]
      exact skInv_of_findGE_eq (by rw [findGE_putList, if_pos hlt]) hinv
  · have hbne : byteCompare uk uq ≠ 0 := fun h => huk ((byteCompare_eq_zero_iff _ _).mp h)
    have hKq : compareKeys (keyWithTs uk t) (keyWithTs uq tq) = byteCompare uk uq := by
      rw [compareKeys_keyWithTs uk uq t tq ht htq, if_pos hbne]
    have hstep : specStep uq tq acc (uk, t, v) = acc := by
      cases acc with
      | none => simp [specStep, huk]
      | some tv =>
        obtain ⟨t0, v0⟩ := tv
        simp [specStep, huk]
    rw [hstep]
    rcases byteCompare_cases uk uq with hbc | hbc | hbc
    · have hlt : compareKeys (keyWithTs uk t) (keyWithTs uq tq) < 0 := by
        rw [hKq, hbc]
        norm_num
      exact skInv_of_findGE_eq (by rw [findGE_putList, if_pos hlt]) hinv
    · exact absurd ((byteCompare_eq_zero_iff _ _).mp hbc) huk
    · have hnlt : ¬ compareKeys (keyWithTs uk t) (keyWithTs uq tq) < 0 := by
        rw [hKq, hbc]
        norm_num
      have hskK : ¬ sameKey (keyWithTs uq tq) (keyWithTs uk t) = true := by
        rw [sameKey_keyWithTs]
        exact fun h => huk h.symm
      cases acc with
      | none =>
        intro e he
        rw [findGE_putList, if_neg hnlt] at he
        cases hfe : findGE (keyWithTs uq tq) l with
        | none =>
          rw [hfe] at he
          dsimp only at he
          injection he with he
          rw [← he]
          exact hskK
        | some e0 =>
          rw [hfe] at he
          dsimp only at he
          by_cases hc : compareKeys (keyWithTs uk t) e0.1 ≤ 0
          · rw [if_pos hc] at he
            injection he with he
            rw [← he]
            exact hskK
          · rw [if_neg hc] at he
            injection he with he
            rw [← he]
            exact hinv e0 hfe
      | some tv =>
        obtain ⟨t0, v0⟩ := tv
        obtain ⟨hfe, h1, h2⟩ := hinv
        refine ⟨?_, h1, h2⟩
        rw [findGE_putList, if_neg hnlt, hfe]
        dsimp only
        rw [if_neg (by
          rw [compareKeys_keyWithTs uk uq t t0 ht h2, if_pos hbne, hbc]
          norm_num)]

theorem skInv_fold (uq : List Nat) (tq : Nat) (hq : uq ≠ []) (htq : tq < u64Mod)
    (puts : List (List Nat × Nat × SValue)) :
    ∀ (l : List (List Nat × SValue)) (acc : Option (Nat × SValue)),
      (∀ p ∈ puts, p.2.1 < u64Mod) → skInv uq tq l acc →
      skInv uq tq (puts.foldl (fun l p => putList (keyWithTs p.1 p.2.1) p.2.2 l) l)
        (puts.foldl (specStep uq tq) acc) := by
  induction puts with
  | nil =>
    intro l acc _ hinv
    exact hinv
  | cons p rest ih =>
    intro l acc hb hinv
    rw [List.foldl_cons, List.foldl_cons]
    exact ih _ _ (fun p2 hp2 => hb p2 (List.mem_cons_of_mem p hp2))
      (skInv_step uq tq hq htq l acc p.1 p.2.1 p.2.2 (hb p (List.mem_cons_self p rest)) hinv)

/-- **C6**: for every skiplist built by a finite sequence of
`Put(KeyWithTs uk ts, v)` calls and every query `KeyWithTs uq tq` with a
nonempty user key and in-range timestamps, `Get` (via
`findNear(key, less=false, allowEqual=true)` and the `SameKey` guard)
returns the stored value of user key `uq` carrying the highest commit
timestamp `≤ tq` with `Version` set to that timestamp parsed from the
stored key — the later of multiple `Put`s of the same full key winning —
and the zero `ValueStruct` when no such version exists. -/
theorem skiplist_get_spec (uq : List Nat) (tq : Nat)
    (puts : List (List Nat × Nat × SValue))
    (hq : uq ≠ []) (htq : tq < u64Mod) (hts : ∀ p ∈ puts, p.2.1 < u64Mod) :
    getList (keyWithTs uq tq) (buildList puts) = specGet uq tq puts := by
  have hbase : skInv uq tq [] none := by
    intro e he
    simp [findGE] at he
  have hinv := skInv_fold uq tq hq htq puts [] none hts hbase
  unfold buildList specGet getList
  cases hacc : puts.foldl (specStep uq tq) none with
  | none =>
    rw [hacc] at hinv
    cases hfe : findGE (keyWithTs uq tq)
        (puts.foldl (fun l p => putList (keyWithTs p.1 p.2.1) p.2.2 l) []) with
    | none => rfl
    | some e =>
      have hsk := hinv e hfe
      dsimp only
      rw [if_neg hsk]
  | some tv =>
    obtain ⟨t, v⟩ := tv
    rw [hacc] at hinv
    obtain ⟨hfe, hle, hlt⟩ := hinv
    rw [hfe]
    dsimp only
    rw [if_pos ((sameKey_keyWithTs uq uq tq t).mpr rfl),
      parseTs_keyWithTs uq t hq hlt]

theorem skiplist_get_spec_witness :
    ((([1] : List Nat) ≠ [] ∧ (10 : Nat) < u64Mod ∧
      ∀ p ∈ ([([1], 5, ⟨0, 0, 0, [10]⟩), ([1], 3, ⟨0, 0, 0, [20]⟩),
          ([1], 5, ⟨0, 0, 0, [11]⟩), ([2], 7, ⟨0, 0, 0, [30]⟩)] :
          List (List Nat × Nat × SValue)), p.2.1 < u64Mod) ∧
      getList (keyWithTs [1] 10)
          (buildList [([1], 5, ⟨0, 0, 0, [10]⟩), ([1], 3, ⟨0, 0, 0, [20]⟩),
            ([1], 5, ⟨0, 0, 0, [11]⟩), ([2], 7, ⟨0, 0, 0, [30]⟩)])
        = specGet [1] 10 [([1], 5, ⟨0, 0, 0, [10]⟩), ([1], 3, ⟨0, 0, 0, [20]⟩),
            ([1], 5, ⟨0, 0, 0, [11]⟩), ([2], 7, ⟨0, 0, 0, [30]⟩)]) ∧
    specGet [1] 10 [([1], 5, ⟨0, 0, 0, [10]⟩), ([1], 3, ⟨0, 0, 0, [20]⟩),
        ([1], 5, ⟨0, 0, 0, [11]⟩), ([2], 7, ⟨0, 0, 0, [30]⟩)]
      = ⟨0, 0, 0, [11], 5⟩ :=
  ⟨⟨⟨by decide, by decide, by decide⟩,
    skiplist_get_spec [1] 10
      [([1], 5, ⟨0, 0, 0, [10]⟩), ([1], 3, ⟨0, 0, 0, [20]⟩),
        ([1], 5, ⟨0, 0, 0, [11]⟩), ([2], 7, ⟨0, 0, 0, [30]⟩)]
      (by decide) (by decide) (by decide)⟩, by decide⟩

end NotBadger
